import Mathlib

/-!
Verification of the sdfa_webui aggregation core (src/app.py).

The development shallowly embeds the two components of the core:
  * the Collector (`collect_data`, lines 11-50): a pure fold of
    (root, project, version, ident, size) observations into three maps,
    modelled as insertion-ordered association lists, exactly the behaviour
    of Python dict / defaultdict accumulation;
  * the Hierarchy Builder (`build_hierarchy`, lines 52-133): the skeleton
    pass, the fill pass and the percentage pass, and the index route's
    conversion, sorting and global root distribution (lines 135-206).

Sizes are naturals (the source only ever adds non-negative file sizes);
percentages are exact rationals, with the source's zero-total guard.
-/

namespace SDFA

/-- One distribution entry, the dict {root, size, percentage} of the source. -/
structure Entry where
  root : String
  size : Nat
  percentage : Rat
  deriving DecidableEq

/-- The version-level node: {total_size, distribution} (lines 92-95). -/
structure VersionNode where
  total_size : Nat
  distribution : List Entry
  deriving DecidableEq

/-- The ident-level node: {versions, total_size, distribution} (lines 55-59). -/
structure IdentNode where
  versions : List (String × VersionNode)
  total_size : Nat
  distribution : List Entry
  deriving DecidableEq

/-- The project-level node: {idents, total_size, distribution} (lines 54-62). -/
structure ProjectNode where
  idents : List (String × IdentNode)
  total_size : Nat
  distribution : List Entry
  deriving DecidableEq

/-- The hierarchy: a Python dict project name -> project node, as an
insertion-ordered association list. -/
abbrev Hierarchy := List (String × ProjectNode)

/-- The (project, version, ident) tuple used as dict key. -/
structure Key where
  project : String
  version : String
  ident : String
  deriving DecidableEq

/-! ### Association lists with Python-dict semantics
A Python dict is an insertion-ordered map: reading finds the (unique) entry,
writing updates it in place, a fresh key is appended at the end.  defaultdict
subscripting inserts the default before the update runs. -/

/-- First-match lookup. -/
def alookup {α β : Type} [DecidableEq α] : List (α × β) → α → Option β
  | [], _ => none
  | x :: l, k => if x.1 = k then some x.2 else alookup l k

/-- Lookup with a default. -/
def agetD {α β : Type} [DecidableEq α] (d : List (α × β)) (k : α) (v : β) : β :=
  (alookup d k).getD v

/-- `d[k] = f(d[k])` where a missing key first gets the default (defaultdict
subscripting followed by an in-place update). -/
def amodifyD {α β : Type} [DecidableEq α] : List (α × β) → α → β → (β → β) → List (α × β)
  | [], k, dflt, f => [(k, f dflt)]
  | x :: l, k, dflt, f =>
      if x.1 = k then (x.1, f x.2) :: l else x :: amodifyD l k dflt f

/-- `d[k] = v`: update in place, or append a fresh key. -/
def asetD {α β : Type} [DecidableEq α] (d : List (α × β)) (k : α) (v : β) : List (α × β) :=
  amodifyD d k v (fun _ => v)

/-- `d[k] += v` on a defaultdict(int). -/
def aincr {α : Type} [DecidableEq α] (d : List (α × Nat)) (k : α) (v : Nat) : List (α × Nat) :=
  amodifyD d k 0 (fun n => n + v)

/-- The keys of an association list, in order. -/
def keys {α β : Type} (d : List (α × β)) : List α := d.map Prod.fst

/-- In-place update of a list element by index (`lst[i].field += ...`);
out-of-range indices change nothing. -/
def listModify {α : Type} : List α → Nat → (α → α) → List α
  | [], _, _ => []
  | a :: l, 0, f => f a :: l
  | a :: l, n + 1, f => a :: listModify l n f

/-! ### The Collector (collect_data, lines 11-50)
The filesystem walk is the external traversal; the core is the reduction in
lines 44-46, a fold of observations into three maps. -/

/-- An observation as seen inside the walk of one root: a classified
_sdfa file (project, version, ident from the path, its size). -/
structure SiteObs where
  project : String
  version : String
  ident : String
  size : Nat
  deriving DecidableEq

/-- A flat observation: `SiteObs` tagged with its root. -/
structure Obs where
  root : String
  project : String
  version : String
  ident : String
  size : Nat
  deriving DecidableEq

def obsKey (o : Obs) : Key := ⟨o.project, o.version, o.ident⟩

/-- The three accumulators of collect_data (lines 13-15). -/
structure CollectAcc where
  statistics : List (Key × Nat)
  root_statistics : List (String × Nat)
  detail_statistics : List (Key × List (String × Nat))
  deriving DecidableEq

/-- Lines 44-46: one observation updates all three maps. -/
def collectStep (acc : CollectAcc) (o : Obs) : CollectAcc :=
  { statistics := aincr acc.statistics (obsKey o) o.size
    root_statistics := aincr acc.root_statistics o.root o.size
    detail_statistics :=
      amodifyD acc.detail_statistics (obsKey o) [] (fun d => aincr d o.root o.size) }

/-- The reduction core: a pure fold over the observation stream. -/
def collect (l : List Obs) : CollectAcc := l.foldl collectStep ⟨[], [], []⟩

/-- Line 9: the configured list of known roots. -/
def ROOT_DIRECTORIES : List String := ["/data/DDAM1", "/data/DDAM2"]

/-- A classified file found under root `r`, as the flat observation. -/
def tagObs (r : String) (s : SiteObs) : Obs := ⟨r, s.project, s.version, s.ident, s.size⟩

/-- collect_data (lines 17-50): the walk visits the configured roots in
order; `obsOf r` is the stream of classified files found under root `r`
(empty when the root does not exist).  The nested loops are the fold of the
concatenated, root-tagged streams. -/
def collect_data (obsOf : String → List SiteObs) : CollectAcc :=
  collect (ROOT_DIRECTORIES.flatMap fun r => (obsOf r).map (tagObs r))

/-! ### The Hierarchy Builder (build_hierarchy, lines 52-133)
Parametrised by the roots list `R` (the source reads the global
ROOT_DIRECTORIES; the claims instantiate it). -/

/-- The guarded percentage `(size / total * 100) if total > 0 else 0`
(lines 100, 123, 130, 193), in exact rational arithmetic. -/
def pct (total size : Nat) : Rat :=
  if 0 < total then (size : Rat) / (total : Rat) * 100 else 0

/-- `detail_statistics[(project, version, ident)].get(root, 0)` (line 99). -/
def dget (detail : List (Key × List (String × Nat))) (k : Key) (r : String) : Nat :=
  agetD (agetD detail k []) r 0

def defaultIdentNode : IdentNode := ⟨[], 0, []⟩

def defaultProjectNode : ProjectNode := ⟨[], 0, []⟩

/-- One step of the skeleton pass (lines 64-84) for one root and one observed
key: vivify the project and ident nodes and append a zero entry for `root`
to each distribution while it is shorter than the root list. -/
def skelStep (R : List String) (root : String) (h : Hierarchy) (k : Key) : Hierarchy :=
  amodifyD h k.project defaultProjectNode (fun p =>
    let p1 : ProjectNode :=
      if p.distribution.length < R.length then
        { p with distribution := p.distribution ++ [⟨root, 0, 0⟩] }
      else p
    { p1 with idents := amodifyD p1.idents k.ident defaultIdentNode (fun ind =>
        if ind.distribution.length < R.length then
          { ind with distribution := ind.distribution ++ [⟨root, 0, 0⟩] }
        else ind) })

/-- The skeleton pass: outer loop over roots, inner loop over observed keys. -/
def skeleton (R : List String) (data : List (Key × Nat)) : Hierarchy :=
  R.foldl (fun h root => data.foldl (fun h kv => skelStep R root h kv.1) h) []

/-- The body of the per-root fill loop (lines 98-116) with the percentage
passed in: append the version's distribution entry, then accrue the root's
size into the ident and project totals and indexed distribution entries,
each under its range guard. -/
def rootStepWith (detail : List (Key × List (String × Nat))) (k : Key)
    (p : ProjectNode) (ir : Nat × String) (percentage : Rat) : ProjectNode :=
  let i := ir.1
  let root := ir.2
  let root_size := dget detail k root
  let p1 : ProjectNode :=
    { p with idents := amodifyD p.idents k.ident defaultIdentNode (fun ind =>
        let ind1 : IdentNode :=
          { ind with versions := amodifyD ind.versions k.version ⟨0, []⟩ (fun v =>
              { v with distribution := v.distribution ++ [⟨root, root_size, percentage⟩] }) }
        if i < ind1.distribution.length then
          { ind1 with
              total_size := ind1.total_size + root_size
              distribution := listModify ind1.distribution i
                (fun e => { e with size := e.size + root_size }) }
        else ind1) }
  if i < p1.distribution.length then
    { p1 with
        total_size := p1.total_size + root_size
        distribution := listModify p1.distribution i
          (fun e => { e with size := e.size + root_size }) }
  else p1

/-- Lines 98-116 as run: the percentage is `size / version_total` guarded. -/
def rootStep (detail : List (Key × List (String × Nat))) (k : Key) (total : Nat)
    (p : ProjectNode) (ir : Nat × String) : ProjectNode :=
  rootStepWith detail k p ir (pct total (dget detail k ir.2))

/-- Lines 92-95: install the fresh version node {total_size, distribution: []}. -/
def setVersion (k : Key) (total : Nat) (p : ProjectNode) : ProjectNode :=
  { p with idents := amodifyD p.idents k.ident defaultIdentNode (fun ind =>
      { ind with versions := asetD ind.versions k.version ⟨total, []⟩ }) }

/-- The fill pass for one (key, total) item (lines 87-116). -/
def fillStep (R : List String) (detail : List (Key × List (String × Nat)))
    (h : Hierarchy) (kv : Key × Nat) : Hierarchy :=
  amodifyD h kv.1.project defaultProjectNode (fun p =>
    (R.enum).foldl (rootStep detail kv.1 kv.2) (setVersion kv.1 kv.2 p))

/-- Recompute the percentages of a distribution against a total (lines
122-124 and 129-131). -/
def pctEntries (total : Nat) (d : List Entry) : List Entry :=
  d.map fun e => { e with percentage := pct total e.size }

/-- The percentage pass (lines 118-131). -/
def pctPass (h : Hierarchy) : Hierarchy :=
  h.map fun pr => (pr.1,
    { pr.2 with
        distribution := pctEntries pr.2.total_size pr.2.distribution
        idents := pr.2.idents.map fun ip =>
          (ip.1, { ip.2 with distribution := pctEntries ip.2.total_size ip.2.distribution }) })

/-- build_hierarchy (lines 52-133): skeleton pass, fill pass, percentage pass. -/
def build_hierarchy (R : List String) (data : List (Key × Nat))
    (detail : List (Key × List (String × Nat))) : Hierarchy :=
  pctPass (data.foldl (fillStep R detail) (skeleton R data))

/-! ### The index route (lines 135-206): conversion, sorting, global totals -/

/-- A version entry of the template list (lines 166-170). -/
structure VersionOut where
  name : String
  total_size : Nat
  distribution : List Entry
  deriving DecidableEq

/-- An ident entry of the template list (lines 158-163). -/
structure IdentOut where
  name : String
  total_size : Nat
  distribution : List Entry
  versions : List VersionOut
  deriving DecidableEq

/-- A project entry of the template list (lines 150-155). -/
structure ProjectOut where
  name : String
  total_size : Nat
  distribution : List Entry
  idents : List IdentOut
  deriving DecidableEq

/-- `versions.sort(key=total_size, reverse=True)` (line 174): a stable sort
with the comparison reversed. -/
def versionLe (a b : VersionOut) : Bool := decide (b.total_size ≤ a.total_size)

/-- Lines 148-177: the hierarchy flattened to the template lists, versions
sorted by size descending inside each ident. -/
def toProjects (h : Hierarchy) : List ProjectOut :=
  h.map fun pr =>
    { name := pr.1
      total_size := pr.2.total_size
      distribution := pr.2.distribution
      idents := pr.2.idents.map fun ip =>
        { name := ip.1
          total_size := ip.2.total_size
          distribution := ip.2.distribution
          versions :=
            (ip.2.versions.map fun vp => ⟨vp.1, vp.2.total_size, vp.2.distribution⟩).mergeSort
              versionLe } }

/-- The sort key of lines 180-183 as a comparison: case-insensitive name when
`sort_by == 'name'`, otherwise total size. -/
def projLe (sort_by : String) (a b : ProjectOut) : Bool :=
  if sort_by = "name" then decide (a.name.toLower ≤ b.name.toLower)
  else decide (a.total_size ≤ b.total_size)

/-- `projects.sort(key=sort_key, reverse=(order == 'desc'))` (lines 185-186). -/
def sortProjects (sort_by ord : String) (ps : List ProjectOut) : List ProjectOut :=
  ps.mergeSort fun a b => if ord = "desc" then projLe sort_by b a else projLe sort_by a b

/-- `request.args.get(name, default)` (lines 139-140). -/
def getArg (v : Option String) (dflt : String) : String := v.getD dflt

/-- The project list handed to the template, for given request parameters
(lines 139-140 and 148-186). -/
def index_projects (sort_p order_p : Option String) (h : Hierarchy) : List ProjectOut :=
  sortProjects (getArg sort_p "total_size") (getArg order_p "desc") (toProjects h)

/-- `total_size = sum(root_stats.values())` (line 189). -/
def total_size_of (root_stats : List (String × Nat)) : Nat := (root_stats.map Prod.snd).sum

/-- The global per-root distribution (lines 188-198): one entry per item of
`root_statistics`, in dict order. -/
def index_root_distribution (acc : CollectAcc) : List Entry :=
  acc.root_statistics.map fun rs =>
    ⟨rs.1, rs.2, pct (total_size_of acc.root_statistics) rs.2⟩

/-! ### Checked percentage computations
The source guards every `size / total * 100` with `if total > 0 else 0`.
The checked variants return `none` exactly when a division by zero would be
attempted, so `= some (unchecked run)` states that the guarded zero branch
of each division is unreachable and the computation never raises. -/

/-- Division that fails on a zero denominator. -/
def qdiv (a b : Rat) : Option Rat := if b = 0 then none else some (a / b)

/-- The guarded percentage with the division made fallible. -/
def pctChecked (total size : Nat) : Option Rat :=
  if 0 < total then (qdiv (size : Rat) (total : Rat)).map (· * 100) else some 0

def rootStepChecked (detail : List (Key × List (String × Nat))) (k : Key) (total : Nat)
    (p : ProjectNode) (ir : Nat × String) : Option ProjectNode :=
  (pctChecked total (dget detail k ir.2)).map (rootStepWith detail k p ir)

def fillStepChecked (R : List String) (detail : List (Key × List (String × Nat)))
    (h : Hierarchy) (kv : Key × Nat) : Option Hierarchy :=
  ((R.enum).foldlM (rootStepChecked detail kv.1 kv.2)
      (setVersion kv.1 kv.2 (agetD h kv.1.project defaultProjectNode))).map
    (fun p => asetD h kv.1.project p)

def pctEntriesChecked (total : Nat) (d : List Entry) : Option (List Entry) :=
  d.mapM fun e => (pctChecked total e.size).map fun q => { e with percentage := q }

def pctPassChecked (h : Hierarchy) : Option Hierarchy :=
  h.mapM fun pr => do
    let d ← pctEntriesChecked pr.2.total_size pr.2.distribution
    let ids ← pr.2.idents.mapM fun ip =>
      (pctEntriesChecked ip.2.total_size ip.2.distribution).map
        fun dd => (ip.1, { ip.2 with distribution := dd })
    some (pr.1, { pr.2 with distribution := d, idents := ids })

def build_hierarchyChecked (R : List String) (data : List (Key × Nat))
    (detail : List (Key × List (String × Nat))) : Option Hierarchy := do
  let h ← data.foldlM (fillStepChecked R detail) (skeleton R data)
  pctPassChecked h

def index_root_distributionChecked (acc : CollectAcc) : Option (List Entry) :=
  acc.root_statistics.mapM fun rs =>
    (pctChecked (total_size_of acc.root_statistics) rs.2).map fun q => ⟨rs.1, rs.2, q⟩

/-! ### Invariant vocabulary -/

/-- The sizes of a distribution, in order. -/
def entrySizes (d : List Entry) : List Nat := d.map fun e => e.size

/-- The size stored at index `j` of a distribution (0 beyond the end). -/
def sizeAt (d : List Entry) (j : Nat) : Nat := ((d.get? j).map fun e => e.size).getD 0

/-- The sum of the sizes of a distribution. -/
def sizesSum (d : List Entry) : Nat := (entrySizes d).sum

/-- Well-formed collector output for the builder: each identity total is the
sum of that identity's per-root details over the known roots. -/
def WellFormed (R : List String) (data : List (Key × Nat))
    (detail : List (Key × List (String × Nat))) : Prop :=
  ∀ kv ∈ data, kv.2 = (R.map fun r => dget detail kv.1 r).sum

/-- A version node whose total is the sum of its distribution sizes and
whose percentages are the guarded ratio against its own total. -/
def VersionOk (v : VersionNode) : Prop :=
  v.total_size = sizesSum v.distribution ∧
  ∀ e ∈ v.distribution, e.percentage = pct v.total_size e.size

/-- Bottom-up consistency of an ident node: totals and per-index
distribution sizes sum over its version children. -/
def IdentOk (ind : IdentNode) : Prop :=
  ind.total_size = (ind.versions.map fun vp => vp.2.total_size).sum ∧
  ind.total_size = sizesSum ind.distribution ∧
  (∀ j, sizeAt ind.distribution j =
    (ind.versions.map fun vp => sizeAt vp.2.distribution j).sum) ∧
  ∀ vp ∈ ind.versions, VersionOk vp.2

/-- Bottom-up consistency of a project node over its ident children. -/
def ProjectOk (p : ProjectNode) : Prop :=
  p.total_size = (p.idents.map fun ip => ip.2.total_size).sum ∧
  p.total_size = sizesSum p.distribution ∧
  (∀ j, sizeAt p.distribution j =
    (p.idents.map fun ip => sizeAt ip.2.distribution j).sum) ∧
  ∀ ip ∈ p.idents, IdentOk ip.2

def HierOk (h : Hierarchy) : Prop := ∀ pr ∈ h, ProjectOk pr.2

/-- `IdentOk` together with the percentage fields recomputed against the
node's own total (the state after the percentage pass). -/
def IdentFacts (ind : IdentNode) : Prop :=
  IdentOk ind ∧ ∀ e ∈ ind.distribution, e.percentage = pct ind.total_size e.size

def ProjectFacts (p : ProjectNode) : Prop :=
  p.total_size = (p.idents.map fun ip => ip.2.total_size).sum ∧
  p.total_size = sizesSum p.distribution ∧
  (∀ j, sizeAt p.distribution j =
    (p.idents.map fun ip => sizeAt ip.2.distribution j).sum) ∧
  (∀ e ∈ p.distribution, e.percentage = pct p.total_size e.size) ∧
  ∀ ip ∈ p.idents, IdentFacts ip.2

/-- The distribution entry the fill loop appends to a version node. -/
def fillEntry (detail : List (Key × List (String × Nat))) (k : Key) (total : Nat)
    (ir : Nat × String) : Entry :=
  ⟨ir.2, dget detail k ir.2, pct total (dget detail k ir.2)⟩

/-- The total size the fill loop accrues into a node whose distribution has
length `L`: the per-root details of the loop items whose index is below `L`. -/
def gsum (detail : List (Key × List (String × Nat))) (k : Key)
    (irs : List (Nat × String)) (L : Nat) : Nat :=
  (irs.map fun ir => if ir.1 < L then dget detail k ir.2 else 0).sum

/-- The size the fill loop accrues at index `j` of such a distribution. -/
def gsumAt (detail : List (Key × List (String × Nat))) (k : Key)
    (irs : List (Nat × String)) (j L : Nat) : Nat :=
  (irs.map fun ir => if ir.1 = j ∧ ir.1 < L then dget detail k ir.2 else 0).sum

/-- A zeroed ident node: total 0, all distribution sizes 0, no versions. -/
def ZeroIdent (ip : String × IdentNode) : Prop :=
  ip.2.total_size = 0 ∧ (∀ e ∈ ip.2.distribution, e.size = 0) ∧ ip.2.versions = []

/-- A zeroed project node. -/
def ZeroProj (pr : String × ProjectNode) : Prop :=
  pr.2.total_size = 0 ∧ (∀ e ∈ pr.2.distribution, e.size = 0) ∧
    ∀ ip ∈ pr.2.idents, ZeroIdent ip

/-- The skeleton pass produces only zeroed nodes: totals 0, all distribution
sizes 0, no version nodes. -/
def AllZero (h : Hierarchy) : Prop := ∀ pr ∈ h, ZeroProj pr

/-- Key `k` has its project and ident nodes present, with distribution
lengths between `b` and `RL`. -/
def PresBound (h : Hierarchy) (k : Key) (b RL : Nat) : Prop :=
  ∃ p, alookup h k.project = some p ∧
    b ≤ p.distribution.length ∧ p.distribution.length ≤ RL ∧
    ∃ ind, alookup p.idents k.ident = some ind ∧
      b ≤ ind.distribution.length ∧ ind.distribution.length ≤ RL

def LenLeIdent (RL : Nat) (ip : String × IdentNode) : Prop :=
  ip.2.distribution.length ≤ RL

def LenLeProj (RL : Nat) (pr : String × ProjectNode) : Prop :=
  pr.2.distribution.length ≤ RL ∧ ∀ ip ∈ pr.2.idents, LenLeIdent RL ip

/-- Every distribution of the hierarchy is at most `RL` long. -/
def LenLe (RL : Nat) (h : Hierarchy) : Prop := ∀ pr ∈ h, LenLeProj RL pr

/-- Every listed key's project and ident nodes are present with
distributions of length exactly `RL`. -/
def LenPres (RL : Nat) (h : Hierarchy) (ks : List Key) : Prop :=
  ∀ k ∈ ks, ∃ p, alookup h k.project = some p ∧ p.distribution.length = RL ∧
    ∃ ind, alookup p.idents k.ident = some ind ∧ ind.distribution.length = RL

/-- None of the listed keys' version names is present yet (at any node of
the matching project and ident names). -/
def NoVer (h : Hierarchy) (ks : List Key) : Prop :=
  ∀ k ∈ ks, ∀ pr ∈ h, pr.1 = k.project →
    ∀ ip ∈ pr.2.idents, ip.1 = k.ident → alookup ip.2.versions k.version = none

/-! ### Concrete inputs used by the evaluation theorems and witnesses -/

def k1 : Key := ⟨"P", "v1", "id1"⟩

def k2 : Key := ⟨"P", "v2", "id1"⟩

/-- The collector output of the spec's end-to-end example: observations
(root1, P, v1, id1, 100), (root2, P, v1, id1, 300), (root1, P, v2, id1, 0). -/
def dataEx : List (Key × Nat) := [(k1, 400), (k2, 0)]

def detailEx : List (Key × List (String × Nat)) :=
  [(k1, [("/data/DDAM1", 100), ("/data/DDAM2", 300)])]

/-- A project with two identity keys and no detail sizes: the smallest input
showing the skeleton pass mislabelling. -/
def dataC1 : List (Key × Nat) := [(⟨"P", "v1", "id"⟩, 1), (⟨"P", "v2", "id"⟩, 1)]

/-- An ill-formed builder input: the identity total (1) is less than the
per-root detail size (5). -/
def detailC10 : List (Key × List (String × Nat)) := [(k1, [("/data/DDAM1", 5)])]

/-- A walk that finds one 5-byte file under the second root and nothing
under the first. -/
def obsOf2 : String → List SiteObs := fun r =>
  if r = "/data/DDAM2" then [⟨"p", "v", "i", 5⟩] else []

/-- A two-project hierarchy, smaller total first. -/
def hEx : Hierarchy := [("a", ⟨[], 1, []⟩), ("b", ⟨[], 2, []⟩)]

/-- Two observations of the same identity under different roots. -/
def obs1 : Obs := ⟨"/data/DDAM1", "p", "v", "i", 3⟩

def obs2 : Obs := ⟨"/data/DDAM2", "p", "v", "i", 4⟩

/-- Claim C1: every ProjectNode's and IdentNode's distribution should have
one entry per known root, labelled in known-roots order.  Evaluating
build_hierarchy on a project with two identity keys shows the code breaking
the label part: both entries of the project (and ident) distribution are
labelled with the first root, because the skeleton pass appends an entry for
the currently iterated root once per observed key while the length guard
allows it.  The entry count (one per known root) does hold. -/
theorem claim_C1 :
    (build_hierarchy ROOT_DIRECTORIES dataC1 []).map
        (fun pr => pr.2.distribution.map fun e => e.root) =
      [["/data/DDAM1", "/data/DDAM1"]] ∧
    (build_hierarchy ROOT_DIRECTORIES dataC1 []).map
        (fun pr => pr.2.idents.map fun ip => ip.2.distribution.map fun e => e.root) =
      [[["/data/DDAM1", "/data/DDAM1"]]] ∧
    ROOT_DIRECTORIES = ["/data/DDAM1", "/data/DDAM2"] := by
  refine ⟨?_, ?_, rfl⟩ <;>
    norm_num +decide [build_hierarchy, skeleton, fillStep, pctPass, ROOT_DIRECTORIES, dataC1,
      skelStep, amodifyD, alookup, agetD, asetD, aincr, rootStep, rootStepWith, setVersion,
      defaultProjectNode, defaultIdentNode, pctEntries, pct, dget, listModify,
      List.foldl, List.enum, List.enumFrom, List.map]

/-- Claim C2: the spec's end-to-end example.  The version nodes come out
exactly as the claim states (v1: total 400, (root1,100,25), (root2,300,75);
v2: total 0, all zero), and the ident and project totals, sizes and
percentages match too — but the second distribution entry of the IdentNode
and of the ProjectNode is labelled "/data/DDAM1" instead of the claimed
root2 ("/data/DDAM2"), by the skeleton-pass mislabelling of claim C1. -/
theorem claim_C2 :
    (build_hierarchy ROOT_DIRECTORIES dataEx detailEx).map
        (fun pr => pr.2.idents.map fun ip => ip.2.versions) =
      [[[("v1", ⟨400, [⟨"/data/DDAM1", 100, 25⟩, ⟨"/data/DDAM2", 300, 75⟩]⟩),
         ("v2", ⟨0, [⟨"/data/DDAM1", 0, 0⟩, ⟨"/data/DDAM2", 0, 0⟩]⟩)]]] ∧
    (build_hierarchy ROOT_DIRECTORIES dataEx detailEx).map
        (fun pr => pr.2.idents.map fun ip => (ip.1, ip.2.total_size, ip.2.distribution)) =
      [[("id1", 400, [⟨"/data/DDAM1", 100, 25⟩, ⟨"/data/DDAM1", 300, 75⟩])]] ∧
    (build_hierarchy ROOT_DIRECTORIES dataEx detailEx).map
        (fun pr => (pr.1, pr.2.total_size, pr.2.distribution)) =
      [("P", 400, [⟨"/data/DDAM1", 100, 25⟩, ⟨"/data/DDAM1", 300, 75⟩])] := by
  refine ⟨?_, ?_, ?_⟩ <;>
    norm_num +decide [build_hierarchy, skeleton, fillStep, pctPass, ROOT_DIRECTORIES, dataEx,
      detailEx, k1, k2, skelStep, amodifyD, alookup, agetD, asetD, aincr, rootStep,
      rootStepWith, setVersion, defaultProjectNode, defaultIdentNode, pctEntries, pct, dget,
      listModify, List.foldl, List.enum, List.enumFrom, List.map]

/-- Claim C3 counterexample: with one observation under the second root and
none under the first, the exposed root_distribution has a single entry (for
"/data/DDAM2") — no (root, 0, 0) entry for the configured root
"/data/DDAM1", contradicting the claim that every configured root appears. -/
theorem claim_C3_counterexample :
    (index_root_distribution (collect_data obsOf2)).map (fun e => e.root) =
        ["/data/DDAM2"] ∧
    (index_root_distribution (collect_data obsOf2)).map (fun e => e.root) ≠
        ROOT_DIRECTORIES := by
  constructor <;>
    simp +decide [index_root_distribution, collect_data, collect, collectStep, obsKey,
      total_size_of, aincr, amodifyD, alookup, agetD, pct, obsOf2, ROOT_DIRECTORIES,
      List.foldl, List.flatMap]

/-- Claim C9 counterexample: with both request parameters absent the
projects are sorted by total size in descending order ([2, 1]), not the
ascending order the claim predicts for an absent order parameter (the code
defaults the order parameter to 'desc'). -/
theorem claim_C9_counterexample :
    (index_projects none none hEx).map (fun p => p.total_size) = [2, 1] ∧
    ¬ ((index_projects none none hEx).map (fun p => p.total_size)).Pairwise (· ≤ ·) := by
  constructor <;>
    simp +decide [index_projects, sortProjects, toProjects, getArg, hEx, projLe,
      List.mergeSort]

/-- Claim C10 counterexample: all input sizes are non-negative, yet the
version node's first distribution entry carries percentage 500, outside
[0, 100] — the claim fails without the well-formedness of the collector
output (identity total = sum of the per-root details). -/
theorem claim_C10_counterexample :
    (build_hierarchy ROOT_DIRECTORIES [(k1, 1)] detailC10).map
        (fun pr => pr.2.idents.map fun ip => ip.2.versions.map fun vp =>
          vp.2.distribution.map fun e => e.percentage) =
      [[[[(500 : Rat), 0]]]] ∧
    ¬ ((500 : Rat) ≤ 100) := by
  refine ⟨?_, by norm_num⟩
  norm_num +decide [build_hierarchy, skeleton, fillStep, pctPass, ROOT_DIRECTORIES, detailC10,
    k1, skelStep, amodifyD, alookup, agetD, asetD, aincr, rootStep, rootStepWith, setVersion,
    defaultProjectNode, defaultIdentNode, pctEntries, pct, dget, listModify,
    List.foldl, List.enum, List.enumFrom, List.map]

/-! ### Association list lemmas -/

theorem alookup_nil {α β : Type} [DecidableEq α] (k : α) :
    alookup ([] : List (α × β)) k = none := rfl

theorem alookup_cons {α β : Type} [DecidableEq α] (x : α × β) (l : List (α × β)) (k : α) :
    alookup (x :: l) k = if x.1 = k then some x.2 else alookup l k := rfl

theorem alookup_none_iff {α β : Type} [DecidableEq α] (d : List (α × β)) (k : α) :
    alookup d k = none ↔ ∀ x ∈ d, x.1 ≠ k := by
  induction d with
  | nil => simp [alookup]
  | cons x l ih =>
    simp only [alookup, List.mem_cons]
    by_cases hx : x.1 = k
    · simp [hx]
    · simp [hx, ih]

theorem alookup_append_of_none {α β : Type} [DecidableEq α] {l1 : List (α × β)} {k : α}
    (l2 : List (α × β)) (h : alookup l1 k = none) :
    alookup (l1 ++ l2) k = alookup l2 k := by
  induction l1 with
  | nil => rfl
  | cons x l ih =>
    simp only [alookup] at h ⊢
    by_cases hx : x.1 = k
    · simp [hx] at h
    · simpa [hx] using ih (by simpa [hx] using h)

theorem alookup_append_of_some {α β : Type} [DecidableEq α] {l1 : List (α × β)} {k : α}
    {v : β} (l2 : List (α × β)) (h : alookup l1 k = some v) :
    alookup (l1 ++ l2) k = some v := by
  induction l1 with
  | nil => simp [alookup] at h
  | cons x l ih =>
    simp only [alookup] at h ⊢
    by_cases hx : x.1 = k
    · simpa [hx] using (by simpa [hx] using h)
    · simpa [hx] using ih (by simpa [hx] using h)

theorem alookup_split {α β : Type} [DecidableEq α] {l1 : List (α × β)} {k : α}
    (h1 : alookup l1 k = none) (v : β) (l2 : List (α × β)) :
    alookup (l1 ++ (k, v) :: l2) k = some v := by
  rw [alookup_append_of_none _ h1]
  simp [alookup]

theorem alookup_split_ne {α β : Type} [DecidableEq α] (l1 l2 : List (α × β)) {k k' : α}
    (hne : k' ≠ k) (v w : β) :
    alookup (l1 ++ (k, v) :: l2) k' = alookup (l1 ++ (k, w) :: l2) k' := by
  have hk : ¬ k = k' := fun h => hne h.symm
  induction l1 with
  | nil => simp [alookup, hk]
  | cons x l ih =>
    simp only [List.cons_append, alookup]
    by_cases hx : x.1 = k'
    · simp [hx]
    · simpa [hx] using ih

theorem exists_split_of_alookup_some {α β : Type} [DecidableEq α] {d : List (α × β)}
    {k : α} {v : β} (h : alookup d k = some v) :
    ∃ l1 l2, d = l1 ++ (k, v) :: l2 ∧ alookup l1 k = none := by
  induction d with
  | nil => simp [alookup] at h
  | cons x l ih =>
    simp only [alookup] at h
    by_cases hx : x.1 = k
    · refine ⟨[], l, ?_, rfl⟩
      rw [if_pos hx] at h
      obtain ⟨a, b⟩ := x
      simp only [Option.some.injEq] at h
      simp_all
    · obtain ⟨l1, l2, hd, hl1⟩ := ih (by simpa [hx] using h)
      exact ⟨x :: l1, l2, by simp [hd], by simp [alookup, hx, hl1]⟩

theorem amodifyD_absent {α β : Type} [DecidableEq α] {d : List (α × β)} {k : α}
    (h : alookup d k = none) (dflt : β) (f : β → β) :
    amodifyD d k dflt f = d ++ [(k, f dflt)] := by
  induction d with
  | nil => rfl
  | cons x l ih =>
    simp only [alookup] at h
    by_cases hx : x.1 = k
    · simp [hx] at h
    · simp only [amodifyD, hx, ite_false, List.cons_append, List.cons.injEq, true_and]
      exact ih (by simpa [hx] using h)

theorem amodifyD_split {α β : Type} [DecidableEq α] {l1 : List (α × β)} {k : α}
    (h1 : alookup l1 k = none) (v : β) (l2 : List (α × β)) (dflt : β) (f : β → β) :
    amodifyD (l1 ++ (k, v) :: l2) k dflt f = l1 ++ (k, f v) :: l2 := by
  induction l1 with
  | nil => simp [amodifyD]
  | cons x l ih =>
    simp only [alookup] at h1
    by_cases hx : x.1 = k
    · simp [hx] at h1
    · simp only [List.cons_append, amodifyD, hx, ite_false, List.cons.injEq, true_and]
      exact ih (by simpa [hx] using h1)

theorem alookup_amodifyD_self {α β : Type} [DecidableEq α] (d : List (α × β)) (k : α)
    (dflt : β) (f : β → β) :
    alookup (amodifyD d k dflt f) k = some (f (agetD d k dflt)) := by
  induction d with
  | nil => simp [amodifyD, alookup, agetD]
  | cons x l ih =>
    by_cases hx : x.1 = k
    · simp [amodifyD, alookup, agetD, hx]
    · simpa [amodifyD, alookup, agetD, hx] using ih

theorem alookup_amodifyD_ne {α β : Type} [DecidableEq α] (d : List (α × β)) {k k' : α}
    (h : k' ≠ k) (dflt : β) (f : β → β) :
    alookup (amodifyD d k dflt f) k' = alookup d k' := by
  have hk : ¬ k = k' := fun hh => h hh.symm
  induction d with
  | nil => simp [amodifyD, alookup, hk]
  | cons x l ih =>
    by_cases hx : x.1 = k
    · have hxk : ¬ x.1 = k' := by rw [hx]; exact hk
      simp [amodifyD, alookup, hx, hxk, hk]
    · simp [amodifyD, alookup, hx, ih]

theorem amodifyD_eq_asetD {α β : Type} [DecidableEq α] (d : List (α × β)) (k : α)
    (dflt : β) (f : β → β) :
    amodifyD d k dflt f = asetD d k (f (agetD d k dflt)) := by
  induction d with
  | nil => simp [amodifyD, asetD, agetD, alookup]
  | cons x l ih =>
    by_cases hx : x.1 = k
    · simp [amodifyD, asetD, agetD, alookup, hx]
    · simp only [amodifyD, asetD, agetD, alookup, hx, ite_false] at ih ⊢
      rw [ih]

theorem agetD_aincr {α : Type} [DecidableEq α] (d : List (α × Nat)) (k k' : α) (v : Nat) :
    agetD (aincr d k v) k' 0 = agetD d k' 0 + if k = k' then v else 0 := by
  by_cases h : k' = k
  · subst h
    simp [aincr, agetD, alookup_amodifyD_self]
  · have hk : ¬ k = k' := fun hh => h hh.symm
    simp [aincr, agetD, alookup_amodifyD_ne _ h, hk]

theorem keys_append {α β : Type} (l1 l2 : List (α × β)) :
    keys (l1 ++ l2) = keys l1 ++ keys l2 := by
  simp [keys]

theorem keys_amodifyD_some {α β : Type} [DecidableEq α] {d : List (α × β)} {k : α}
    {v : β} (h : alookup d k = some v) (dflt : β) (f : β → β) :
    keys (amodifyD d k dflt f) = keys d := by
  obtain ⟨l1, l2, rfl, h1⟩ := exists_split_of_alookup_some h
  rw [amodifyD_split h1]
  simp [keys]

theorem keys_amodifyD_none {α β : Type} [DecidableEq α] {d : List (α × β)} {k : α}
    (h : alookup d k = none) (dflt : β) (f : β → β) :
    keys (amodifyD d k dflt f) = keys d ++ [k] := by
  rw [amodifyD_absent h]
  simp [keys]

/-! ### listModify and size lemmas -/

theorem length_listModify {α : Type} (l : List α) (i : Nat) (f : α → α) :
    (listModify l i f).length = l.length := by
  induction l generalizing i with
  | nil => rfl
  | cons a l ih =>
    cases i with
    | zero => rfl
    | succ n => simp [listModify, ih]

theorem get?_listModify {α : Type} (l : List α) (i : Nat) (f : α → α) (j : Nat) :
    (listModify l i f).get? j = if i = j then (l.get? j).map f else l.get? j := by
  induction l generalizing i j with
  | nil => simp [listModify]
  | cons a l ih =>
    cases i with
    | zero => cases j <;> simp [listModify]
    | succ n =>
      cases j with
      | zero => simp [listModify]
      | succ m => simpa [listModify] using ih n m

theorem listModify_of_ge {α : Type} {l : List α} {i : Nat} (h : l.length ≤ i) (f : α → α) :
    listModify l i f = l := by
  induction l generalizing i with
  | nil => rfl
  | cons a l ih =>
    cases i with
    | zero => simp at h
    | succ n => simp [listModify, ih (by simpa using h)]

theorem sizeAt_listModify_size (d : List Entry) (i n j : Nat) :
    sizeAt (listModify d i fun e => { e with size := e.size + n }) j =
      sizeAt d j + if j = i ∧ j < d.length then n else 0 := by
  unfold sizeAt
  rw [get?_listModify]
  by_cases hij : i = j
  · subst hij
    by_cases hlen : i < d.length
    · cases hg : d.get? i with
      | none => exact absurd (List.get?_eq_none.1 hg) (by omega)
      | some e => simp [hg, hlen]
    · rw [if_pos rfl, List.get?_eq_none.2 (Nat.le_of_not_lt hlen)]
      simp [hlen]
  · have hji : ¬ (j = i ∧ j < d.length) := fun hc => hij hc.1.symm
    simp [hij, hji]

theorem sizesSum_listModify_size {d : List Entry} {i : Nat} (h : i < d.length) (n : Nat) :
    sizesSum (listModify d i fun e => { e with size := e.size + n }) = sizesSum d + n := by
  induction d generalizing i with
  | nil => simp at h
  | cons a l ih =>
    cases i with
    | zero => simp [listModify, sizesSum, entrySizes]; omega
    | succ m =>
      have := ih (i := m) (by simpa using h)
      simp [listModify, sizesSum, entrySizes] at this ⊢
      omega

theorem sizesSum_append (d1 d2 : List Entry) :
    sizesSum (d1 ++ d2) = sizesSum d1 + sizesSum d2 := by
  simp [sizesSum, entrySizes]

theorem sizeAt_of_all_zero {d : List Entry} (h : ∀ e ∈ d, e.size = 0) (j : Nat) :
    sizeAt d j = 0 := by
  unfold sizeAt
  cases hg : d.get? j with
  | none => rfl
  | some e => simp [h e (List.get?_mem hg)]

theorem sizesSum_of_all_zero {d : List Entry} (h : ∀ e ∈ d, e.size = 0) :
    sizesSum d = 0 := by
  induction d with
  | nil => rfl
  | cons a l ih =>
    simp only [sizesSum, entrySizes, List.map_cons, List.sum_cons]
    rw [h a (by simp)]
    simpa [sizesSum, entrySizes] using ih (fun e he => h e (by simp [he]))

/-! ### Sums over the enumerated root list -/

theorem gsum_cons (detail : List (Key × List (String × Nat))) (k : Key)
    (ir : Nat × String) (irs : List (Nat × String)) (L : Nat) :
    gsum detail k (ir :: irs) L =
      (if ir.1 < L then dget detail k ir.2 else 0) + gsum detail k irs L := by
  simp [gsum]

theorem gsumAt_cons (detail : List (Key × List (String × Nat))) (k : Key)
    (ir : Nat × String) (irs : List (Nat × String)) (j L : Nat) :
    gsumAt detail k (ir :: irs) j L =
      (if ir.1 = j ∧ ir.1 < L then dget detail k ir.2 else 0) + gsumAt detail k irs j L := by
  simp [gsumAt]

theorem gsum_enumFrom_full (detail : List (Key × List (String × Nat))) (k : Key) :
    ∀ (l : List String) (n L : Nat), n + l.length ≤ L →
      gsum detail k (l.enumFrom n) L = (l.map fun r => dget detail k r).sum := by
  intro l
  induction l with
  | nil => intro n L _; simp [gsum]
  | cons a tl ih =>
    intro n L hL
    simp only [List.enumFrom, List.map_cons, List.sum_cons]
    rw [gsum_cons, if_pos (by simp at hL; omega), ih (n + 1) L (by simp at hL ⊢; omega)]

theorem gsumAt_enumFrom_of_lt (detail : List (Key × List (String × Nat))) (k : Key) :
    ∀ (l : List String) (n j L : Nat), j < n →
      gsumAt detail k (l.enumFrom n) j L = 0 := by
  intro l
  induction l with
  | nil => intro n j L _; simp [gsumAt]
  | cons a tl ih =>
    intro n j L hj
    simp only [List.enumFrom]
    rw [gsumAt_cons, if_neg (by omega), ih (n + 1) j L (by omega)]

theorem gsumAt_enumFrom_aligned (detail : List (Key × List (String × Nat))) (k : Key)
    (total : Nat) :
    ∀ (l : List String) (n j L : Nat), n + l.length ≤ L →
      gsumAt detail k (l.enumFrom n) (n + j) L =
        sizeAt ((l.enumFrom n).map (fillEntry detail k total)) j := by
  intro l
  induction l with
  | nil => intro n j L _; simp [gsumAt, sizeAt]
  | cons a tl ih =>
    intro n j L hL
    simp only [List.enumFrom, List.map_cons]
    rw [gsumAt_cons]
    cases j with
    | zero =>
      rw [if_pos (by constructor <;> [omega; (simp at hL; omega)])]
      rw [gsumAt_enumFrom_of_lt detail k tl (n + 1) (n + 0) L (by omega)]
      simp [sizeAt, fillEntry]
    | succ m =>
      rw [if_neg (by omega)]
      have := ih (n + 1) m L (by simp at hL ⊢; omega)
      rw [show n + (m + 1) = (n + 1) + m by omega, this]
      simp [sizeAt]

/-- At the full root list, the accrued total is the sum of the per-root
details. -/
theorem gsum_enum_full (detail : List (Key × List (String × Nat))) (k : Key)
    (R : List String) :
    gsum detail k R.enum R.length = (R.map fun r => dget detail k r).sum :=
  gsum_enumFrom_full detail k R 0 R.length (by omega)

/-- At index `j`, the accrued size matches the size of the `j`-th entry the
fill loop appends to the version node. -/
theorem gsumAt_enum_aligned (detail : List (Key × List (String × Nat))) (k : Key)
    (total : Nat) (R : List String) (j : Nat) :
    gsumAt detail k R.enum j R.length =
      sizeAt (R.enum.map (fillEntry detail k total)) j := by
  have := gsumAt_enumFrom_aligned detail k total R 0 j R.length (by omega)
  simpa using this

theorem sizesSum_fillEntries (detail : List (Key × List (String × Nat))) (k : Key)
    (total : Nat) (R : List String) (n : Nat) :
    sizesSum ((R.enumFrom n).map (fillEntry detail k total)) =
      (R.map fun r => dget detail k r).sum := by
  unfold sizesSum entrySizes
  rw [List.map_map]
  have : ((fun e => e.size) ∘ fillEntry detail k total) =
      (fun ir : Nat × String => dget detail k ir.2) := by
    funext ir; rfl
  rw [this, show (fun ir : Nat × String => dget detail k ir.2) =
      (fun r => dget detail k r) ∘ Prod.snd from rfl, ← List.map_map,
    List.enumFrom_map_snd]

theorem fillEntry_pct (detail : List (Key × List (String × Nat))) (k : Key)
    (total : Nat) {irs : List (Nat × String)} {e : Entry}
    (he : e ∈ irs.map (fillEntry detail k total)) :
    e.percentage = pct total e.size := by
  obtain ⟨ir, _, rfl⟩ := List.mem_map.1 he
  rfl

/-! ### The fill loop, one step -/

/-- What one iteration of the per-root fill loop does to the project node,
given that the worked key's ident and version are present: the version's
distribution gains its entry, and the ident and project totals and indexed
sizes accrue the root's detail size under their length guards, while the
split of every other ident and version is untouched. -/
theorem rootStep_split (detail : List (Key × List (String × Nat))) (k : Key) (T : Nat)
    (p : ProjectNode) (ir : Nat × String)
    {I1 I2 : List (String × IdentNode)} {ind : IdentNode}
    {V1 V2 : List (String × VersionNode)} {v : VersionNode}
    (hpi : p.idents = I1 ++ (k.ident, ind) :: I2)
    (hI1 : alookup I1 k.ident = none)
    (hv : ind.versions = V1 ++ (k.version, v) :: V2)
    (hV1 : alookup V1 k.version = none) :
    ∃ ind2 v2,
      (rootStep detail k T p ir).idents = I1 ++ (k.ident, ind2) :: I2 ∧
      (rootStep detail k T p ir).total_size =
        p.total_size + (if ir.1 < p.distribution.length then dget detail k ir.2 else 0) ∧
      (rootStep detail k T p ir).distribution.length = p.distribution.length ∧
      (∀ j, sizeAt (rootStep detail k T p ir).distribution j =
        sizeAt p.distribution j +
          (if ir.1 = j ∧ ir.1 < p.distribution.length then dget detail k ir.2 else 0)) ∧
      sizesSum (rootStep detail k T p ir).distribution =
        sizesSum p.distribution +
          (if ir.1 < p.distribution.length then dget detail k ir.2 else 0) ∧
      ind2.versions = V1 ++ (k.version, v2) :: V2 ∧
      ind2.total_size =
        ind.total_size + (if ir.1 < ind.distribution.length then dget detail k ir.2 else 0) ∧
      ind2.distribution.length = ind.distribution.length ∧
      (∀ j, sizeAt ind2.distribution j =
        sizeAt ind.distribution j +
          (if ir.1 = j ∧ ir.1 < ind.distribution.length then dget detail k ir.2 else 0)) ∧
      sizesSum ind2.distribution =
        sizesSum ind.distribution +
          (if ir.1 < ind.distribution.length then dget detail k ir.2 else 0) ∧
      v2.total_size = v.total_size ∧
      v2.distribution = v.distribution ++ [fillEntry detail k T ir] := by
  obtain ⟨i, root⟩ := ir
  set rs := dget detail k root with hrs
  set v2 : VersionNode :=
    { v with distribution := v.distribution ++ [⟨root, rs, pct T rs⟩] } with hv2
  set nv : List (String × VersionNode) := V1 ++ (k.version, v2) :: V2 with hnv
  set ind2 : IdentNode :=
    (if i < ind.distribution.length then
      ⟨nv, ind.total_size + rs,
        listModify ind.distribution i fun e => { e with size := e.size + rs }⟩
    else ⟨nv, ind.total_size, ind.distribution⟩) with hind2
  have hform : rootStep detail k T p (i, root) =
      if i < p.distribution.length then
        ⟨I1 ++ (k.ident, ind2) :: I2, p.total_size + rs,
          listModify p.distribution i fun e => { e with size := e.size + rs }⟩
      else ⟨I1 ++ (k.ident, ind2) :: I2, p.total_size, p.distribution⟩ := by
    simp only [rootStep, rootStepWith]
    rw [hpi, amodifyD_split hI1, hv, amodifyD_split hV1]
  rw [hform]
  refine ⟨ind2, v2, ?_, ?_, ?_, ?_, ?_, ?_, ?_, ?_, ?_, ?_, ?_, ?_⟩
  · by_cases hpg : i < p.distribution.length <;> simp [hpg]
  · by_cases hpg : i < p.distribution.length <;> simp [hpg]
  · by_cases hpg : i < p.distribution.length <;> simp [hpg, length_listModify]
  · intro j
    by_cases hpg : i < p.distribution.length
    · rw [if_pos hpg]
      show sizeAt (listModify p.distribution i _) j = _
      rw [sizeAt_listModify_size]
      by_cases hj : i = j
      · subst hj; simp [hpg]
      · have h1 : ¬ (j = i ∧ j < p.distribution.length) := fun hc => hj hc.1.symm
        have h2 : ¬ (i = j ∧ i < p.distribution.length) := fun hc => hj hc.1
        simp [h1, h2]
    · have h2 : ¬ (i = j ∧ i < p.distribution.length) := fun hc => hpg hc.2
      simp [hpg, h2]
  · by_cases hpg : i < p.distribution.length
    · rw [if_pos hpg]
      show sizesSum (listModify p.distribution i _) = _
      rw [sizesSum_listModify_size hpg, if_pos hpg]
    · simp [hpg]
  · by_cases hig : i < ind.distribution.length <;> simp [hind2, hig]
  · by_cases hig : i < ind.distribution.length <;> simp [hind2, hig]
  · by_cases hig : i < ind.distribution.length <;> simp [hind2, hig, length_listModify]
  · intro j
    by_cases hig : i < ind.distribution.length
    · rw [hind2, if_pos hig]
      show sizeAt (listModify ind.distribution i _) j = _
      rw [sizeAt_listModify_size]
      by_cases hj : i = j
      · subst hj; simp [hig]
      · have h1 : ¬ (j = i ∧ j < ind.distribution.length) := fun hc => hj hc.1.symm
        have h2 : ¬ (i = j ∧ i < ind.distribution.length) := fun hc => hj hc.1
        simp [h1, h2]
    · have h2 : ¬ (i = j ∧ i < ind.distribution.length) := fun hc => hig hc.2
      simp [hind2, hig, h2]
  · by_cases hig : i < ind.distribution.length
    · rw [hind2, if_pos hig]
      show sizesSum (listModify ind.distribution i _) = _
      rw [sizesSum_listModify_size hig, if_pos hig]
    · simp [hind2, hig]
  · simp [hv2]
  · simp [hv2, fillEntry, hrs]

/-- The whole fill loop over an index-root list, by iterating
`rootStep_split`: totals and indexed sizes accrue `gsum`/`gsumAt`, the
version's distribution gains one entry per loop item, everything else is
untouched. -/
theorem loop_split (detail : List (Key × List (String × Nat))) (k : Key) (T : Nat) :
    ∀ (irs : List (Nat × String)) (p : ProjectNode)
      {I1 I2 : List (String × IdentNode)} {ind : IdentNode}
      {V1 V2 : List (String × VersionNode)} {v : VersionNode},
      p.idents = I1 ++ (k.ident, ind) :: I2 →
      alookup I1 k.ident = none →
      ind.versions = V1 ++ (k.version, v) :: V2 →
      alookup V1 k.version = none →
      ∃ ind2 v2,
        (irs.foldl (rootStep detail k T) p).idents = I1 ++ (k.ident, ind2) :: I2 ∧
        (irs.foldl (rootStep detail k T) p).total_size =
          p.total_size + gsum detail k irs p.distribution.length ∧
        (irs.foldl (rootStep detail k T) p).distribution.length = p.distribution.length ∧
        (∀ j, sizeAt (irs.foldl (rootStep detail k T) p).distribution j =
          sizeAt p.distribution j + gsumAt detail k irs j p.distribution.length) ∧
        sizesSum (irs.foldl (rootStep detail k T) p).distribution =
          sizesSum p.distribution + gsum detail k irs p.distribution.length ∧
        ind2.versions = V1 ++ (k.version, v2) :: V2 ∧
        ind2.total_size = ind.total_size + gsum detail k irs ind.distribution.length ∧
        ind2.distribution.length = ind.distribution.length ∧
        (∀ j, sizeAt ind2.distribution j =
          sizeAt ind.distribution j + gsumAt detail k irs j ind.distribution.length) ∧
        sizesSum ind2.distribution =
          sizesSum ind.distribution + gsum detail k irs ind.distribution.length ∧
        v2.total_size = v.total_size ∧
        v2.distribution = v.distribution ++ irs.map (fillEntry detail k T) := by
  intro irs
  induction irs with
  | nil =>
    intro p I1 I2 ind V1 V2 v hpi hI1 hv hV1
    exact ⟨ind, v, by simp [hpi, gsum, gsumAt], by simp [gsum], rfl,
      fun j => by simp [gsumAt], by simp [gsum], by simp [hv], by simp [gsum], rfl,
      fun j => by simp [gsumAt], by simp [gsum], rfl, by simp⟩
  | cons ir irs ih =>
    intro p I1 I2 ind V1 V2 v hpi hI1 hv hV1
    obtain ⟨ind1, v1, h1, h2, h3, h4, h5, h6, h7, h8, h9, h10, h11, h12⟩ :=
      rootStep_split detail k T p ir hpi hI1 hv hV1
    obtain ⟨ind2, v2, g1, g2, g3, g4, g5, g6, g7, g8, g9, g10, g11, g12⟩ :=
      ih (rootStep detail k T p ir) h1 hI1 h6 hV1
    refine ⟨ind2, v2, ?_, ?_, ?_, ?_, ?_, ?_, ?_, ?_, ?_, ?_, ?_, ?_⟩
    · simpa using g1
    · simp only [List.foldl_cons]
      rw [g2, h2, h3, gsum_cons]
      omega
    · simp only [List.foldl_cons]
      rw [g3, h3]
    · intro j
      simp only [List.foldl_cons]
      rw [g4 j, h4 j, h3, gsumAt_cons]
      omega
    · simp only [List.foldl_cons]
      rw [g5, h5, h3, gsum_cons]
      omega
    · exact g6
    · rw [g7, h7, h8, gsum_cons]
      omega
    · rw [g8, h8]
    · intro j
      rw [g9 j, h9 j, h8, gsumAt_cons]
      omega
    · rw [g10, h10, h8, gsum_cons]
      omega
    · exact g11.trans h11
    · rw [g12, h12, List.map_cons]
      simp

/-- The fill pass for one (key, total) item, on a hierarchy where the key's
project and ident are present and its version is fresh: the project node is
updated in place as `loop_split` describes, with the new version node
appended to the ident's versions; every other project is untouched. -/
theorem fillStep_split (R : List String) (detail : List (Key × List (String × Nat)))
    (h : Hierarchy) (k : Key) (T : Nat) {p : ProjectNode} {ind : IdentNode}
    (hp : alookup h k.project = some p)
    (hind : alookup p.idents k.ident = some ind)
    (hnover : alookup ind.versions k.version = none) :
    ∃ H1 H2 p2, h = H1 ++ (k.project, p) :: H2 ∧ alookup H1 k.project = none ∧
      fillStep R detail h (k, T) = H1 ++ (k.project, p2) :: H2 ∧
      ∃ I1 I2 ind2, p.idents = I1 ++ (k.ident, ind) :: I2 ∧ alookup I1 k.ident = none ∧
        p2.idents = I1 ++ (k.ident, ind2) :: I2 ∧
        p2.total_size = p.total_size + gsum detail k R.enum p.distribution.length ∧
        p2.distribution.length = p.distribution.length ∧
        (∀ j, sizeAt p2.distribution j =
          sizeAt p.distribution j + gsumAt detail k R.enum j p.distribution.length) ∧
        sizesSum p2.distribution =
          sizesSum p.distribution + gsum detail k R.enum p.distribution.length ∧
        ∃ v2, ind2.versions = ind.versions ++ [(k.version, v2)] ∧
          ind2.total_size = ind.total_size + gsum detail k R.enum ind.distribution.length ∧
          ind2.distribution.length = ind.distribution.length ∧
          (∀ j, sizeAt ind2.distribution j =
            sizeAt ind.distribution j + gsumAt detail k R.enum j ind.distribution.length) ∧
          sizesSum ind2.distribution =
            sizesSum ind.distribution + gsum detail k R.enum ind.distribution.length ∧
          v2.total_size = T ∧
          v2.distribution = R.enum.map (fillEntry detail k T) := by
  obtain ⟨H1, H2, hh, hH1⟩ := exists_split_of_alookup_some hp
  obtain ⟨I1, I2, hpi, hI1⟩ := exists_split_of_alookup_some hind
  have hsv : setVersion k T p =
      { p with idents := I1 ++
          (k.ident, { ind with versions := ind.versions ++ [(k.version, (⟨T, []⟩ : VersionNode))] }) :: I2 } := by
    simp only [setVersion]
    rw [hpi, amodifyD_split hI1]
    rw [show asetD ind.versions k.version (⟨T, []⟩ : VersionNode) =
      ind.versions ++ [(k.version, (⟨T, []⟩ : VersionNode))] from amodifyD_absent hnover _ _]
  have hload :
      (setVersion k T p).idents = I1 ++
        (k.ident, { ind with versions := ind.versions ++ [(k.version, (⟨T, []⟩ : VersionNode))] }) :: I2 := by
    rw [hsv]
  have hvers :
      ({ ind with versions := ind.versions ++ [(k.version, (⟨T, []⟩ : VersionNode))] } : IdentNode).versions =
        ind.versions ++ (k.version, (⟨T, []⟩ : VersionNode)) :: [] := by
    simp
  obtain ⟨ind2, v2, g1, g2, g3, g4, g5, g6, g7, g8, g9, g10, g11, g12⟩ :=
    loop_split detail k T R.enum (setVersion k T p) hload hI1 hvers hnover
  have hfill : fillStep R detail h (k, T) =
      H1 ++ (k.project, R.enum.foldl (rootStep detail k T) (setVersion k T p)) :: H2 := by
    simp only [fillStep]
    rw [hh, amodifyD_split hH1]
  have hsvd : (setVersion k T p).distribution = p.distribution := by rw [hsv]
  have hsvt : (setVersion k T p).total_size = p.total_size := by rw [hsv]
  refine ⟨H1, H2, _, hh, hH1, hfill, I1, I2, ind2, hpi, hI1, g1, ?_, ?_, ?_, ?_,
    ⟨v2, ?_, ?_, ?_, ?_, ?_, ?_, ?_⟩⟩
  · rw [g2, hsvd, hsvt]
  · rw [g3, hsvd]
  · intro j; rw [g4 j, hsvd]
  · rw [g5, hsvd]
  · rw [g6]
  · simpa using g7
  · simpa using g8
  · intro j; simpa using g9 j
  · simpa using g10
  · simpa using g11
  · simpa using g12

/-! ### Skeleton pass lemmas -/

theorem alookup_some_mem {α β : Type} [DecidableEq α] {d : List (α × β)} {k : α} {v : β}
    (h : alookup d k = some v) : (k, v) ∈ d := by
  obtain ⟨l1, l2, rfl, _⟩ := exists_split_of_alookup_some h
  simp

/-- Membership predicates survive `amodifyD` when the update and the default
insertion keep them. -/
theorem mem_amodifyD_of {α β : Type} [DecidableEq α] {P : α × β → Prop}
    {d : List (α × β)} {k : α} {dflt : β} {f : β → β}
    (hall : ∀ x ∈ d, P x) (hf : ∀ x ∈ d, x.1 = k → P (k, f x.2))
    (hdflt : P (k, f dflt)) :
    ∀ x ∈ amodifyD d k dflt f, P x := by
  induction d with
  | nil => simpa [amodifyD] using hdflt
  | cons y l ih =>
    intro z hz
    by_cases hy : y.1 = k
    · simp only [amodifyD, hy, ite_true] at hz
      rcases List.mem_cons.1 hz with rfl | hz2
      · exact hf y (by simp) hy
      · exact hall z (by simp [hz2])
    · simp only [amodifyD, hy, ite_false] at hz
      rcases List.mem_cons.1 hz with h1 | hz2
      · subst h1; exact hall _ (List.mem_cons_self _ _)
      · exact ih (fun w hw => hall w (by simp [hw]))
          (fun w hw hwk => hf w (by simp [hw]) hwk) z hz2

/-- A fold preserves any invariant its step preserves. -/
theorem foldl_preserve {α γ : Type} (P : α → Prop) {f : α → γ → α}
    (hf : ∀ a c, P a → P (f a c)) :
    ∀ (l : List γ) (a : α), P a → P (l.foldl f a) := by
  intro l
  induction l with
  | nil => intro a ha; exact ha
  | cons c l ih => intro a ha; exact ih (f a c) (hf a c ha)

theorem sizes_zero_append_zero {d : List Entry} (h : ∀ e ∈ d, e.size = 0) (root : String) :
    ∀ e ∈ d ++ [(⟨root, 0, 0⟩ : Entry)], e.size = 0 := by
  intro e he
  rcases List.mem_append.1 he with he | he
  · exact h e he
  · simp only [List.mem_singleton] at he; subst he; rfl

theorem zeroIdent_skelBody (R : List String) (root : String) (k : Key)
    (ip : String × IdentNode) (hz : ZeroIdent ip) :
    ZeroIdent (k.ident, if ip.2.distribution.length < R.length then
        { ip.2 with distribution := ip.2.distribution ++ [⟨root, 0, 0⟩] } else ip.2) := by
  obtain ⟨i1, i2, i3⟩ := hz
  by_cases hic : ip.2.distribution.length < R.length
  · exact ⟨by simp [ZeroIdent, hic, i1], by
      simp only [ZeroIdent, hic, if_true]
      exact sizes_zero_append_zero i2 root, by simp [ZeroIdent, hic, i3]⟩
  · exact ⟨by simp [ZeroIdent, hic, i1], by simpa [ZeroIdent, hic] using i2,
      by simp [ZeroIdent, hic, i3]⟩

theorem zeroIdent_skelDefault (R : List String) (root : String) (k : Key) :
    ZeroIdent (k.ident, if (defaultIdentNode).distribution.length < R.length then
        { defaultIdentNode with distribution := defaultIdentNode.distribution ++ [⟨root, 0, 0⟩] }
      else defaultIdentNode) := by
  by_cases hic : 0 < R.length <;> simp [ZeroIdent, defaultIdentNode, hic]

theorem allZero_skelStep (R : List String) (root : String) (h : Hierarchy) (k : Key)
    (hz : AllZero h) : AllZero (skelStep R root h k) := by
  unfold AllZero skelStep
  refine mem_amodifyD_of hz ?_ ?_
  · intro x hx _
    obtain ⟨h1, h2, h3⟩ := hz x hx
    by_cases hc : x.2.distribution.length < R.length
    · refine ⟨by simp [hc, h1], ?_, ?_⟩
      · simp only [hc, if_true]
        exact sizes_zero_append_zero h2 root
      · simp only [hc, if_true]
        exact mem_amodifyD_of h3 (fun ip hip _ => zeroIdent_skelBody R root k ip (h3 ip hip))
          (zeroIdent_skelDefault R root k)
    · refine ⟨by simp [hc, h1], by simpa [hc] using h2, ?_⟩
      simp only [hc, if_false]
      exact mem_amodifyD_of h3 (fun ip hip _ => zeroIdent_skelBody R root k ip (h3 ip hip))
        (zeroIdent_skelDefault R root k)
  · have hd1 : (defaultProjectNode).total_size = 0 := rfl
    have hd3 : ∀ ip ∈ (defaultProjectNode).idents, ZeroIdent ip := by
      intro ip hip; simp [defaultProjectNode] at hip
    by_cases hc : (defaultProjectNode).distribution.length < R.length
    · refine ⟨by simp [hc, hd1], ?_, ?_⟩
      · simp only [hc, if_true]
        exact sizes_zero_append_zero (by intro e he; simp [defaultProjectNode] at he) root
      · simp only [hc, if_true]
        exact mem_amodifyD_of hd3 (fun ip hip _ => zeroIdent_skelBody R root k ip (hd3 ip hip))
          (zeroIdent_skelDefault R root k)
    · refine ⟨by simp [hc, hd1], by
        simp only [hc, if_false]
        intro e he; simp [defaultProjectNode] at he, ?_⟩
      simp only [hc, if_false]
      exact mem_amodifyD_of hd3 (fun ip hip _ => zeroIdent_skelBody R root k ip (hd3 ip hip))
        (zeroIdent_skelDefault R root k)

theorem allZero_skeleton (R : List String) (data : List (Key × Nat)) :
    AllZero (skeleton R data) := by
  unfold skeleton
  refine foldl_preserve AllZero (fun h root hz => ?_) R [] (by intro pr hpr; simp at hpr)
  exact foldl_preserve AllZero (fun h kv hz2 => allZero_skelStep R root h kv.1 hz2) data h hz

theorem lenLe_skelStep (R : List String) (root : String) (h : Hierarchy) (k : Key)
    (hL : LenLe R.length h) : LenLe R.length (skelStep R root h k) := by
  unfold LenLe skelStep
  have hbody : ∀ (p : ProjectNode), LenLeProj R.length (k.project, p) →
      LenLeProj R.length (k.project,
        (let p1 : ProjectNode :=
          if p.distribution.length < R.length then
            { p with distribution := p.distribution ++ [⟨root, 0, 0⟩] } else p
         { p1 with idents := amodifyD p1.idents k.ident defaultIdentNode (fun ind =>
             if ind.distribution.length < R.length then
               { ind with distribution := ind.distribution ++ [⟨root, 0, 0⟩] }
             else ind) })) := by
    intro p ⟨h1, h2⟩
    have hident : ∀ ip ∈ amodifyD p.idents k.ident defaultIdentNode (fun ind =>
        if ind.distribution.length < R.length then
          { ind with distribution := ind.distribution ++ [⟨root, 0, 0⟩] } else ind),
        LenLeIdent R.length ip := by
      refine mem_amodifyD_of h2 ?_ ?_
      · intro ip hip _
        have := h2 ip hip
        unfold LenLeIdent at this ⊢
        by_cases hic : ip.2.distribution.length < R.length <;> simp [hic] <;> omega
      · unfold LenLeIdent defaultIdentNode
        by_cases hic : (0 : Nat) < R.length <;> simp [hic] <;> omega
    by_cases hc : p.distribution.length < R.length
    · exact ⟨by simp [LenLeProj, hc]; omega, by simpa [LenLeProj, hc] using hident⟩
    · exact ⟨by simpa [LenLeProj, hc] using h1, by simpa [LenLeProj, hc] using hident⟩
  refine mem_amodifyD_of hL (fun x hx _ => hbody x.2 ?_) (hbody defaultProjectNode ?_)
  · have := hL x hx
    exact ⟨this.1, this.2⟩
  · exact ⟨by simp [LenLeProj, defaultProjectNode],
      by intro ip hip; simp [defaultProjectNode] at hip⟩

theorem lenLe_skeleton (R : List String) (data : List (Key × Nat)) :
    LenLe R.length (skeleton R data) := by
  unfold skeleton
  refine foldl_preserve (LenLe R.length) (fun h root hL => ?_) R []
    (by intro pr hpr; simp at hpr)
  exact foldl_preserve (LenLe R.length)
    (fun h kv hL2 => lenLe_skelStep R root h kv.1 hL2) data h hL

theorem presBound_weaken {h : Hierarchy} {k : Key} {b c RL : Nat} (hcb : c ≤ b)
    (hp : PresBound h k b RL) : PresBound h k c RL := by
  obtain ⟨p, h1, h2, h3, ind, h4, h5, h6⟩ := hp
  exact ⟨p, h1, by omega, h3, ind, h4, by omega, h6⟩

/-- One skeleton step only grows distributions, and past `R.length` it
leaves them alone. -/
theorem skelStep_grow (R : List String) (root : String) (h : Hierarchy) (k' : Key)
    {q : String} {p : ProjectNode} (hq : alookup h q = some p) :
    ∃ p', alookup (skelStep R root h k') q = some p' ∧
      p.distribution.length ≤ p'.distribution.length ∧
      p'.distribution.length ≤ max p.distribution.length R.length ∧
      ∀ i ind, alookup p.idents i = some ind →
        ∃ ind', alookup p'.idents i = some ind' ∧
          ind.distribution.length ≤ ind'.distribution.length ∧
          ind'.distribution.length ≤ max ind.distribution.length R.length := by
  unfold skelStep
  by_cases hq' : q = k'.project
  · subst hq'
    rw [alookup_amodifyD_self]
    have hget : agetD h k'.project defaultProjectNode = p := by simp [agetD, hq]
    rw [hget]
    refine ⟨_, rfl, ?_, ?_, ?_⟩
    · by_cases hc : p.distribution.length < R.length <;> simp [hc]
    · by_cases hc : p.distribution.length < R.length <;> simp [hc] <;> omega
    · intro i ind hind
      have hpi : (if p.distribution.length < R.length then
          { p with distribution := p.distribution ++ [⟨root, 0, 0⟩] }
        else p).idents = p.idents := by
        by_cases hc : p.distribution.length < R.length <;> simp [hc]
      dsimp only
      rw [hpi]
      by_cases hii : i = k'.ident
      · subst hii
        rw [alookup_amodifyD_self]
        have hgeti : agetD p.idents k'.ident defaultIdentNode = ind := by simp [agetD, hind]
        rw [hgeti]
        refine ⟨_, rfl, ?_, ?_⟩
        · by_cases hic : ind.distribution.length < R.length <;> simp [hic]
        · by_cases hic : ind.distribution.length < R.length <;> simp [hic] <;> omega
      · rw [alookup_amodifyD_ne _ hii _ _]
        exact ⟨ind, hind, le_refl _, le_max_left _ _⟩
  · rw [alookup_amodifyD_ne _ hq' _ _]
    exact ⟨p, hq, le_refl _, le_max_left _ _,
      fun i ind hind => ⟨ind, hind, le_refl _, le_max_left _ _⟩⟩

theorem presBound_skelStep_mono (R : List String) (root : String) {h : Hierarchy} {k : Key}
    {b : Nat} (k' : Key) (hp : PresBound h k b R.length) :
    PresBound (skelStep R root h k') k b R.length := by
  obtain ⟨p, h1, h2, h3, ind, h4, h5, h6⟩ := hp
  obtain ⟨p', g1, g2, g3, g4⟩ := skelStep_grow R root h k' h1
  obtain ⟨ind', i1, i2, i3⟩ := g4 k.ident ind h4
  exact ⟨p', g1, by omega, by omega, ind', i1, by omega, by omega⟩

/-- A skeleton step on key `k` vivifies `k`'s project and ident when absent. -/
theorem skelStep_self_absent (R : List String) (root : String) (h : Hierarchy) (k : Key)
    (hRL : 0 < R.length) (hq : alookup h k.project = none) :
    ∃ p', alookup (skelStep R root h k) k.project = some p' ∧
      1 ≤ p'.distribution.length ∧ p'.distribution.length ≤ R.length ∧
      ∃ ind', alookup p'.idents k.ident = some ind' ∧
        1 ≤ ind'.distribution.length ∧ ind'.distribution.length ≤ R.length := by
  unfold skelStep
  rw [alookup_amodifyD_self]
  have hget : agetD h k.project defaultProjectNode = defaultProjectNode := by
    simp [agetD, hq]
  rw [hget]
  have hc : (defaultProjectNode).distribution.length < R.length := by
    simpa [defaultProjectNode] using hRL
  refine ⟨_, rfl, ?_, ?_, ?_⟩
  · simp [hRL, defaultProjectNode]
  · simp [hRL, defaultProjectNode]; omega
  · dsimp only
    rw [show (if (defaultProjectNode).distribution.length < R.length then
        { defaultProjectNode with
            distribution := (defaultProjectNode).distribution ++ [⟨root, 0, 0⟩] }
      else defaultProjectNode).idents = (defaultProjectNode).idents by simp [hc]]
    rw [show (defaultProjectNode).idents = ([] : List (String × IdentNode)) from rfl]
    rw [alookup_amodifyD_self]
    refine ⟨_, rfl, ?_, ?_⟩
    · simp [agetD, alookup, hRL, defaultIdentNode]
    · simp [agetD, alookup, hRL, defaultIdentNode]; omega

/-- A skeleton step on key `k` grows `k`'s present project (and ident) bound
towards `R.length`. -/
theorem skelStep_self_present (R : List String) (root : String) (h : Hierarchy) (k : Key)
    (hRL : 0 < R.length) {p : ProjectNode} (hq : alookup h k.project = some p)
    (hpL : p.distribution.length ≤ R.length)
    (hiL : ∀ ip ∈ p.idents, LenLeIdent R.length ip) :
    ∃ p', alookup (skelStep R root h k) k.project = some p' ∧
      min (p.distribution.length + 1) R.length ≤ p'.distribution.length ∧
      p'.distribution.length ≤ R.length ∧
      ∃ ind', alookup p'.idents k.ident = some ind' ∧
        (∀ ind, alookup p.idents k.ident = some ind →
          min (ind.distribution.length + 1) R.length ≤ ind'.distribution.length) ∧
        1 ≤ ind'.distribution.length ∧ ind'.distribution.length ≤ R.length := by
  unfold skelStep
  rw [alookup_amodifyD_self]
  have hget : agetD h k.project defaultProjectNode = p := by simp [agetD, hq]
  rw [hget]
  refine ⟨_, rfl, ?_, ?_, ?_⟩
  · by_cases hc : p.distribution.length < R.length <;> simp [hc] <;> omega
  · by_cases hc : p.distribution.length < R.length <;> simp [hc] <;> omega
  · dsimp only
    rw [show (if p.distribution.length < R.length then
        { p with distribution := p.distribution ++ [⟨root, 0, 0⟩] }
      else p).idents = p.idents by by_cases hc : p.distribution.length < R.length <;> simp [hc]]
    rw [alookup_amodifyD_self]
    cases hqi : alookup p.idents k.ident with
    | none =>
      have hgeti : agetD p.idents k.ident defaultIdentNode = defaultIdentNode := by
        simp [agetD, hqi]
      rw [hgeti]
      have hic : (defaultIdentNode).distribution.length < R.length := by
        simpa [defaultIdentNode] using hRL
      refine ⟨_, rfl, ?_, ?_, ?_⟩
      · intro ind hind; exact absurd hind (by simp)
      · simp [hRL, defaultIdentNode]
      · simp [hRL, defaultIdentNode]; omega
    | some ind =>
      have hgeti : agetD p.idents k.ident defaultIdentNode = ind := by simp [agetD, hqi]
      rw [hgeti]
      have hindL : ind.distribution.length ≤ R.length :=
        hiL (k.ident, ind) (alookup_some_mem hqi)
      refine ⟨_, rfl, ?_, ?_, ?_⟩
      · intro ind0 hind0
        injection hind0 with h0
        subst h0
        by_cases hic : ind.distribution.length < R.length <;> simp [hic] <;> omega
      · by_cases hic : ind.distribution.length < R.length <;> simp [hic] <;> omega
      · by_cases hic : ind.distribution.length < R.length <;> simp [hic] <;> omega

/-- The skeleton establishment step: a skeleton pass step on `k` itself lifts
`k`'s presence bound from `b` (or nothing, when `b = 0`) to `min (b+1) R.length`. -/
theorem presBound_skelStep_self (R : List String) (root : String) (h : Hierarchy) (k : Key)
    {b : Nat} (hRL : 0 < R.length) (hL : LenLe R.length h)
    (hp : PresBound h k b R.length ∨ b = 0) :
    PresBound (skelStep R root h k) k (min (b + 1) R.length) R.length := by
  cases hq : alookup h k.project with
  | none =>
    obtain ⟨p', g1, g2, g3, ind', g4, g5, g6⟩ := skelStep_self_absent R root h k hRL hq
    have hb0 : b = 0 := by
      rcases hp with hp | hp
      · obtain ⟨p, h1, _⟩ := hp
        rw [hq] at h1
        exact absurd h1 (by simp)
      · exact hp
    subst hb0
    exact ⟨p', g1, by omega, g3, ind', g4, by omega, g6⟩
  | some p =>
    have hpL : p.distribution.length ≤ R.length :=
      (hL (k.project, p) (alookup_some_mem hq)).1
    have hiL : ∀ ip ∈ p.idents, LenLeIdent R.length ip :=
      (hL (k.project, p) (alookup_some_mem hq)).2
    obtain ⟨p', g1, g2, g3, ind', g4, g5, g6, g7⟩ :=
      skelStep_self_present R root h k hRL hq hpL hiL
    rcases hp with hp | hb0
    · obtain ⟨p0, h1, h2, h3, ind0, h4, h5, h6⟩ := hp
      rw [hq] at h1
      injection h1 with hpp
      subst hpp
      have := g5 ind0 h4
      exact ⟨p', g1, by omega, g3, ind', g4, by omega, g7⟩
    · subst hb0
      exact ⟨p', g1, by omega, g3, ind', g4, by omega, g7⟩

theorem presBound_fold_mono (R : List String) (root : String)
    (data : List (Key × Nat)) {k : Key} {b : Nat} {h : Hierarchy}
    (hp : PresBound h k b R.length) :
    PresBound (data.foldl (fun h kv => skelStep R root h kv.1) h) k b R.length :=
  foldl_preserve (fun h2 => PresBound h2 k b R.length)
    (fun h2 kv hpp => presBound_skelStep_mono R root kv.1 hpp) data h hp

/-- One full inner pass (one root, all observed keys): every observed key's
presence bound rises to `min (b+1) R.length`. -/
theorem presBound_pass (R : List String) (root : String) :
    ∀ (l : List (Key × Nat)) (h : Hierarchy) (b : Nat), 0 < R.length → LenLe R.length h →
      (∀ kv ∈ l, PresBound h kv.1 b R.length ∨ b = 0) →
      ∀ kv ∈ l, PresBound (l.foldl (fun h kv => skelStep R root h kv.1) h) kv.1
        (min (b + 1) R.length) R.length := by
  intro l
  induction l with
  | nil => intro h b _ _ _ kv hkv; simp at hkv
  | cons kv0 l ih =>
    intro h b hRL hL hb kv hkv
    have hstep0 : PresBound (skelStep R root h kv0.1) kv0.1 (min (b + 1) R.length) R.length :=
      presBound_skelStep_self R root h kv0.1 hRL hL (hb kv0 (by simp))
    rcases List.mem_cons.1 hkv with h1 | h1
    · subst h1
      simpa using presBound_fold_mono R root l hstep0
    · have hnext : ∀ kv ∈ l, PresBound (skelStep R root h kv0.1) kv.1 b R.length ∨ b = 0 := by
        intro kv2 hkv2
        rcases hb kv2 (by simp [hkv2]) with hp | hp
        · exact Or.inl (presBound_skelStep_mono R root kv0.1 hp)
        · exact Or.inr hp
      simpa using ih (skelStep R root h kv0.1) b hRL
        (lenLe_skelStep R root h kv0.1 hL) hnext kv h1

/-- The outer skeleton fold over a suffix of roots. -/
theorem presBound_roots (R : List String) (data : List (Key × Nat)) :
    ∀ (rs : List String) (h : Hierarchy) (b : Nat), 0 < R.length → LenLe R.length h →
      (∀ kv ∈ data, PresBound h kv.1 b R.length ∨ b = 0) →
      ∀ kv ∈ data,
        PresBound (rs.foldl (fun h root => data.foldl (fun h kv => skelStep R root h kv.1) h) h)
          kv.1 (min (b + rs.length) R.length) R.length ∨ b + rs.length = 0 := by
  intro rs
  induction rs with
  | nil =>
    intro h b hRL hL hb kv hkv
    rcases hb kv hkv with hp | hp
    · exact Or.inl (by simpa using presBound_weaken (by omega) hp)
    · exact Or.inr (by simpa using hp)
  | cons root rs ih =>
    intro h b hRL hL hb kv hkv
    have hpass := presBound_pass R root data h b hRL hL hb
    have hL2 : LenLe R.length (data.foldl (fun h kv => skelStep R root h kv.1) h) :=
      foldl_preserve (LenLe R.length)
        (fun h2 kv hh => lenLe_skelStep R root h2 kv.1 hh) data h hL
    have hnext : ∀ kv2 ∈ data,
        PresBound (data.foldl (fun h kv => skelStep R root h kv.1) h) kv2.1
          (min (b + 1) R.length) R.length ∨ min (b + 1) R.length = 0 := by
      intro kv2 hkv2
      exact Or.inl (hpass kv2 hkv2)
    have := ih (data.foldl (fun h kv => skelStep R root h kv.1) h)
      (min (b + 1) R.length) hRL hL2 hnext kv hkv
    rcases this with hp | hp
    · exact Or.inl (by
        refine presBound_weaken ?_ hp
        simp only [List.length_cons]
        omega)
    · omega

/-- The skeleton pass leaves every observed key's project and ident present
with distributions of length exactly `R.length` (the known-roots count),
whenever at least one root is configured. -/
theorem skeleton_lenPres (R : List String) (data : List (Key × Nat)) (hR : 0 < R.length) :
    LenPres R.length (skeleton R data) (data.map Prod.fst) := by
  intro k hk
  obtain ⟨kv, hkv, rfl⟩ := List.mem_map.1 hk
  have := presBound_roots R data R [] 0 hR
    (by intro pr hpr; simp at hpr)
    (fun kv2 _ => Or.inr rfl) kv hkv
  rcases this with hp | hp
  · obtain ⟨p, h1, h2, h3, ind, h4, h5, h6⟩ := hp
    rw [Nat.zero_add, Nat.min_self] at h2 h5
    exact ⟨p, h1, by omega, ind, h4, by omega⟩
  · omega

/-! ### From the zeroed skeleton to the invariants -/

theorem projectOk_of_zero {pr : String × ProjectNode} (hz : ZeroProj pr) :
    ProjectOk pr.2 := by
  obtain ⟨h1, h2, h3⟩ := hz
  refine ⟨?_, ?_, ?_, ?_⟩
  · rw [h1]
    symm
    apply List.sum_eq_zero
    intro x hx
    obtain ⟨ip, hip, rfl⟩ := List.mem_map.1 hx
    exact (h3 ip hip).1
  · rw [h1]
    exact (sizesSum_of_all_zero h2).symm
  · intro j
    rw [sizeAt_of_all_zero h2 j]
    symm
    apply List.sum_eq_zero
    intro x hx
    obtain ⟨ip, hip, rfl⟩ := List.mem_map.1 hx
    exact sizeAt_of_all_zero (h3 ip hip).2.1 j
  · intro ip hip
    obtain ⟨z1, z2, z3⟩ := h3 ip hip
    refine ⟨by rw [z1, z3]; rfl, by rw [z1]; exact (sizesSum_of_all_zero z2).symm,
      fun j => by rw [sizeAt_of_all_zero z2 j, z3]; rfl, fun vp hvp => ?_⟩
    rw [z3] at hvp
    simp at hvp

theorem hierOk_of_allZero {h : Hierarchy} (hz : AllZero h) : HierOk h :=
  fun pr hpr => projectOk_of_zero (hz pr hpr)

theorem noVer_of_allZero {h : Hierarchy} (hz : AllZero h) (ks : List Key) : NoVer h ks := by
  intro k _ pr hpr _ ip hip _
  rw [((hz pr hpr).2.2 ip hip).2.2]
  rfl

/-! ### The percentage pass only rewrites percentages -/

theorem entrySizes_pctEntries (t : Nat) (d : List Entry) :
    entrySizes (pctEntries t d) = entrySizes d := by
  unfold entrySizes pctEntries
  rw [List.map_map]
  rfl

theorem sizesSum_pctEntries (t : Nat) (d : List Entry) :
    sizesSum (pctEntries t d) = sizesSum d := by
  unfold sizesSum
  rw [entrySizes_pctEntries]

theorem sizeAt_pctEntries (t : Nat) (d : List Entry) (j : Nat) :
    sizeAt (pctEntries t d) j = sizeAt d j := by
  unfold sizeAt pctEntries
  rw [List.get?_map]
  cases d.get? j <;> rfl

theorem mem_pctEntries_pct (t : Nat) (d : List Entry) :
    ∀ e ∈ pctEntries t d, e.percentage = pct t e.size := by
  intro e he
  obtain ⟨e0, _, rfl⟩ := List.mem_map.1 he
  rfl

/-! ### The fill pass keeps the bottom-up invariants -/

theorem fill_fold_ok (R : List String) (detail : List (Key × List (String × Nat))) :
    ∀ (todo : List (Key × Nat)) (h : Hierarchy),
      HierOk h →
      LenPres R.length h (todo.map Prod.fst) →
      NoVer h (todo.map Prod.fst) →
      (todo.map Prod.fst).Nodup →
      (∀ kv ∈ todo, kv.2 = (R.map fun r => dget detail kv.1 r).sum) →
      HierOk (todo.foldl (fillStep R detail) h) := by
  intro todo
  induction todo with
  | nil => intro h hOk _ _ _ _; exact hOk
  | cons kv todo ih =>
    obtain ⟨k, T⟩ := kv
    intro h hOk hLP hNV hND hWF
    obtain ⟨p, hp, hpl, ind, hind, hil⟩ := hLP k (by simp)
    have hmemp : (k.project, p) ∈ h := alookup_some_mem hp
    have hmemi : (k.ident, ind) ∈ p.idents := alookup_some_mem hind
    have hnover : alookup ind.versions k.version = none :=
      hNV k (by simp) (k.project, p) hmemp rfl (k.ident, ind) hmemi rfl
    obtain ⟨H1, H2, p2, hh, hH1, hfill, I1, I2, ind2, hpi, hI1, hpi2, f1, f2, f3, f4,
      v2, g1, g2, g3, g4, g5, g6, g7⟩ := fillStep_split R detail h k T hp hind hnover
    have hPOk : ProjectOk p := hOk (k.project, p) hmemp
    have hIOk : IdentOk ind := hPOk.2.2.2 (k.ident, ind) hmemi
    have hG : gsum detail k R.enum R.length = (R.map fun r => dget detail k r).sum :=
      gsum_enum_full detail k R
    have hT : T = (R.map fun r => dget detail k r).sum := hWF (k, T) (by simp)
    have hIOk2 : IdentOk ind2 := by
      refine ⟨?_, ?_, ?_, ?_⟩
      · rw [g2, hil, hG, g1, List.map_append, List.sum_append]
        simp only [List.map_cons, List.map_nil, List.sum_cons, List.sum_nil]
        rw [g6]
        have h0 := hIOk.1
        omega
      · rw [g2, g5]
        have h0 := hIOk.2.1
        omega
      · intro j
        rw [g4 j, g1, List.map_append, List.sum_append]
        simp only [List.map_cons, List.map_nil, List.sum_cons, List.sum_nil]
        rw [g7, hil]
        rw [show R.enum = R.enumFrom 0 from rfl,
          ← gsumAt_enumFrom_aligned detail k T R 0 j R.length (by omega)]
        have h0 := hIOk.2.2.1 j
        simp only [Nat.zero_add] at h0 ⊢
        omega
      · intro vp hvp
        rw [g1] at hvp
        rcases List.mem_append.1 hvp with hvp | hvp
        · exact hIOk.2.2.2 vp hvp
        · rcases List.mem_cons.1 hvp with h1 | hvp2
          · subst h1
            constructor
            · rw [g7, g6, hT, show R.enum = R.enumFrom 0 from rfl, sizesSum_fillEntries]
            · intro e he
              rw [g7] at he
              rw [g6]
              exact fillEntry_pct detail k T he
          · simp at hvp2
    have hPOk2 : ProjectOk p2 := by
      refine ⟨?_, ?_, ?_, ?_⟩
      · have h0 := hPOk.1
        rw [hpi] at h0
        simp only [List.map_append, List.map_cons, List.sum_append, List.sum_cons] at h0
        rw [f1, hpi2]
        simp only [List.map_append, List.map_cons, List.sum_append, List.sum_cons]
        rw [g2, hil, hpl]
        omega
      · have h0 := hPOk.2.1
        rw [f1, f4]
        omega
      · intro j
        have h0 := hPOk.2.2.1 j
        rw [hpi] at h0
        simp only [List.map_append, List.map_cons, List.sum_append, List.sum_cons] at h0
        rw [f3 j, hpi2]
        simp only [List.map_append, List.map_cons, List.sum_append, List.sum_cons]
        rw [g4 j, hil, hpl]
        omega
      · intro ip hip
        rw [hpi2] at hip
        rcases List.mem_append.1 hip with hip | hip
        · exact hPOk.2.2.2 ip (by rw [hpi]; exact List.mem_append_left _ hip)
        · rcases List.mem_cons.1 hip with h1 | hip2
          · subst h1; exact hIOk2
          · exact hPOk.2.2.2 ip
              (by rw [hpi]; exact List.mem_append_right _ (List.mem_cons_of_mem _ hip2))
    have hOk1 : HierOk (fillStep R detail h (k, T)) := by
      rw [hfill]
      intro pr hpr
      rcases List.mem_append.1 hpr with hpr | hpr
      · exact hOk pr (by rw [hh]; exact List.mem_append_left _ hpr)
      · rcases List.mem_cons.1 hpr with h1 | hpr2
        · subst h1; exact hPOk2
        · exact hOk pr
            (by rw [hh]; exact List.mem_append_right _ (List.mem_cons_of_mem _ hpr2))
    have hLP1 : LenPres R.length (fillStep R detail h (k, T)) (todo.map Prod.fst) := by
      intro k' hk'
      obtain ⟨p', hp', hpl', ind', hind', hil'⟩ := hLP k' (by simp [hk'])
      by_cases hpq : k'.project = k.project
      · rw [hpq, hp] at hp'
        injection hp' with he
        subst he
        refine ⟨p2, ?_, by rw [f2]; exact hpl, ?_⟩
        · rw [hfill, hpq]
          exact alookup_split hH1 _ _
        · by_cases hiq : k'.ident = k.ident
          · refine ⟨ind2, ?_, by rw [g3]; exact hil⟩
            rw [hpi2, hiq]
            exact alookup_split hI1 _ _
          · refine ⟨ind', ?_, hil'⟩
            rw [hpi2, alookup_split_ne I1 I2 hiq ind2 ind, ← hpi]
            exact hind'
      · refine ⟨p', ?_, hpl', ind', hind', hil'⟩
        rw [hfill, alookup_split_ne H1 H2 hpq p2 p, ← hh]
        exact hp'
    have hndk : k ∉ todo.map Prod.fst := by
      have h0 := hND
      simp only [List.map_cons, List.nodup_cons] at h0
      exact h0.1
    have hNV1 : NoVer (fillStep R detail h (k, T)) (todo.map Prod.fst) := by
      intro k' hk' pr hpr hprq ip hip hipq
      have hkne : k' ≠ k := fun he => hndk (he ▸ hk')
      rw [hfill] at hpr
      rcases List.mem_append.1 hpr with hpr | hpr
      · exact hNV k' (by simp [hk']) pr (by rw [hh]; exact List.mem_append_left _ hpr)
          hprq ip hip hipq
      · rcases List.mem_cons.1 hpr with h1 | hpr2
        · subst h1
          simp only at hprq hip
          rw [hpi2] at hip
          rcases List.mem_append.1 hip with hip | hip
          · exact hNV k' (by simp [hk']) (k.project, p) hmemp hprq ip
              (by rw [hpi]; exact List.mem_append_left _ hip) hipq
          · rcases List.mem_cons.1 hip with h2 | hip2
            · subst h2
              simp only at hipq
              rw [g1]
              have hold : alookup ind.versions k'.version = none :=
                hNV k' (by simp [hk']) (k.project, p) hmemp hprq (k.ident, ind) hmemi hipq
              rw [alookup_append_of_none _ hold]
              have hvne : k.version ≠ k'.version := by
                intro he
                apply hkne
                obtain ⟨kp, kv', ki⟩ := k
                obtain ⟨kp', kv2, ki2⟩ := k'
                simp only at hprq hipq he
                simp [hprq, hipq, he]
              simp [alookup, hvne]
            · exact hNV k' (by simp [hk']) (k.project, p) hmemp hprq ip
                (by rw [hpi]; exact List.mem_append_right _ (List.mem_cons_of_mem _ hip2))
                hipq
        · exact hNV k' (by simp [hk']) pr
            (by rw [hh]; exact List.mem_append_right _ (List.mem_cons_of_mem _ hpr2))
            hprq ip hip hipq
    simp only [List.foldl_cons]
    refine ih (fillStep R detail h (k, T)) hOk1 hLP1 hNV1 ?_ ?_
    · have h0 := hND
      simp only [List.map_cons, List.nodup_cons] at h0
      exact h0.2
    · intro kv hkv
      exact hWF kv (by simp [hkv])

/-- The builder's output invariants: for well-formed collector data (with at
least one configured root), every project node of the built tree is
additively consistent with its idents, versions and distribution, and every
percentage field is the guarded ratio against the owning node's total. -/
theorem build_hierarchy_facts (R : List String) (data : List (Key × Nat))
    (detail : List (Key × List (String × Nat))) (hR : 0 < R.length)
    (hWF : WellFormed R data detail) (hnd : (data.map Prod.fst).Nodup) :
    ∀ pr ∈ build_hierarchy R data detail, ProjectFacts pr.2 := by
  have hz := allZero_skeleton R data
  have hOk : HierOk (data.foldl (fillStep R detail) (skeleton R data)) :=
    fill_fold_ok R detail data (skeleton R data) (hierOk_of_allZero hz)
      (skeleton_lenPres R data hR) (noVer_of_allZero hz _) hnd hWF
  intro pr hpr
  unfold build_hierarchy pctPass at hpr
  obtain ⟨pr0, hpr0, rfl⟩ := List.mem_map.1 hpr
  obtain ⟨a1, a2, a3, a4⟩ := hOk pr0 hpr0
  refine ⟨?_, ?_, ?_, ?_, ?_⟩
  · simp only [List.map_map]
    exact a1
  · simp only []
    rw [sizesSum_pctEntries]
    exact a2
  · intro j
    simp only [List.map_map]
    rw [sizeAt_pctEntries, a3 j]
    symm
    congr 1
    apply List.map_congr_left
    intro ip _
    exact sizeAt_pctEntries _ _ j
  · intro e he
    exact mem_pctEntries_pct _ _ e he
  · intro ip hip
    simp only [] at hip
    obtain ⟨ip0, hip0, rfl⟩ := List.mem_map.1 hip
    obtain ⟨b1, b2, b3, b4⟩ := a4 ip0 hip0
    refine ⟨⟨b1, ?_, ?_, b4⟩, ?_⟩
    · rw [sizesSum_pctEntries]
      exact b2
    · intro j
      rw [sizeAt_pctEntries]
      exact b3 j
    · intro e he
      exact mem_pctEntries_pct _ _ e he

/-! ### Percentage arithmetic -/

theorem pct_div_sum (t : Nat) (sz : List Nat) :
    (sz.map fun (s : Nat) => (s : Rat) / (t : Rat) * 100).sum =
      ((sz.sum : Rat)) / (t : Rat) * 100 := by
  induction sz with
  | nil => simp
  | cons a l ih =>
    simp only [List.map_cons, List.sum_cons, ih, Nat.cast_add]
    rw [add_div, add_mul]

theorem pct_sum_eq_100 {t : Nat} (sz : List Nat) (hsum : sz.sum = t) (ht : 0 < t) :
    (sz.map (pct t)).sum = 100 := by
  have hmap : sz.map (pct t) = sz.map fun (s : Nat) => (s : Rat) / (t : Rat) * 100 := by
    apply List.map_congr_left
    intro s _
    unfold pct
    rw [if_pos ht]
  rw [hmap, pct_div_sum, hsum]
  have hne : (t : Rat) ≠ 0 := by
    exact_mod_cast Nat.pos_iff_ne_zero.1 ht
  rw [div_self hne, one_mul]

/-- The percentage-closure property of one node: exact 100 when the total is
positive, all-zero percentages when it is zero. -/
theorem pct_closure {total : Nat} {dist : List Entry} (hsum : total = sizesSum dist)
    (hpct : ∀ e ∈ dist, e.percentage = pct total e.size) :
    (0 < total → (dist.map fun e => e.percentage).sum = 100) ∧
    (total = 0 → ∀ e ∈ dist, e.percentage = 0) := by
  constructor
  · intro ht
    have hmap : dist.map (fun e => e.percentage) = (entrySizes dist).map (pct total) := by
      unfold entrySizes
      rw [List.map_map]
      apply List.map_congr_left
      intro e he
      exact hpct e he
    rw [hmap]
    exact pct_sum_eq_100 _ (by rw [hsum]; rfl) ht
  · intro ht e he
    rw [hpct e he, ht]
    unfold pct
    simp

theorem pct_bounds {total s : Nat} (hs : s ≤ total) :
    0 ≤ pct total s ∧ pct total s ≤ 100 := by
  unfold pct
  by_cases ht : 0 < total
  · rw [if_pos ht]
    have htp : (0 : Rat) < (total : Rat) := by exact_mod_cast ht
    constructor
    · positivity
    · have h1 : (s : Rat) / (total : Rat) ≤ 1 := by
        rw [div_le_one htp]
        exact_mod_cast hs
      calc (s : Rat) / (total : Rat) * 100 ≤ 1 * 100 :=
            mul_le_mul_of_nonneg_right h1 (by norm_num)
        _ = 100 := one_mul 100
  · rw [if_neg ht]
    norm_num

theorem entry_size_le_sizesSum {dist : List Entry} {e : Entry} (he : e ∈ dist) :
    e.size ≤ sizesSum dist := by
  unfold sizesSum entrySizes
  exact List.single_le_sum (fun x _ => Nat.zero_le x) e.size
    (List.mem_map_of_mem (fun e => e.size) he)

theorem pct_entry_bounds {total : Nat} {dist : List Entry} (hsum : total = sizesSum dist)
    (hpct : ∀ e ∈ dist, e.percentage = pct total e.size) :
    ∀ e ∈ dist, 0 ≤ e.percentage ∧ e.percentage ≤ 100 := by
  intro e he
  rw [hpct e he]
  exact pct_bounds (hsum ▸ entry_size_le_sizesSum he)

/-- Claim C4: for every well-formed Collector output (each identity total is
the sum over known roots of the per-root details; Python dict keys are
unique, hence the Nodup hypothesis; sizes are naturals), in the built tree
every project total is the sum of its idents' totals, every ident total the
sum of its versions' totals, and at every distribution index a parent's size
is the sum of its children's sizes at that index. -/
theorem claim_C4 (data : List (Key × Nat)) (detail : List (Key × List (String × Nat)))
    (hWF : WellFormed ROOT_DIRECTORIES data detail) (hnd : (data.map Prod.fst).Nodup) :
    ∀ pr ∈ build_hierarchy ROOT_DIRECTORIES data detail,
      pr.2.total_size = (pr.2.idents.map fun ip => ip.2.total_size).sum ∧
      (∀ ip ∈ pr.2.idents,
        ip.2.total_size = (ip.2.versions.map fun vp => vp.2.total_size).sum) ∧
      (∀ j, sizeAt pr.2.distribution j =
        (pr.2.idents.map fun ip => sizeAt ip.2.distribution j).sum) ∧
      ∀ ip ∈ pr.2.idents, ∀ j, sizeAt ip.2.distribution j =
        (ip.2.versions.map fun vp => sizeAt vp.2.distribution j).sum := by
  intro pr hpr
  obtain ⟨a1, a2, a3, a4, a5⟩ :=
    build_hierarchy_facts ROOT_DIRECTORIES data detail (by decide) hWF hnd pr hpr
  exact ⟨a1, fun ip hip => ((a5 ip hip).1).1, a3,
    fun ip hip j => ((a5 ip hip).1).2.2.1 j⟩

theorem claim_C4_witness :
    WellFormed ROOT_DIRECTORIES dataEx detailEx ∧ ((dataEx.map Prod.fst).Nodup) ∧
    ∀ pr ∈ build_hierarchy ROOT_DIRECTORIES dataEx detailEx,
      pr.2.total_size = (pr.2.idents.map fun ip => ip.2.total_size).sum ∧
      (∀ ip ∈ pr.2.idents,
        ip.2.total_size = (ip.2.versions.map fun vp => vp.2.total_size).sum) ∧
      (∀ j, sizeAt pr.2.distribution j =
        (pr.2.idents.map fun ip => sizeAt ip.2.distribution j).sum) ∧
      ∀ ip ∈ pr.2.idents, ∀ j, sizeAt ip.2.distribution j =
        (ip.2.versions.map fun vp => sizeAt vp.2.distribution j).sum :=
  ⟨by simp only [WellFormed]; decide, by decide,
    claim_C4 dataEx detailEx (by simp only [WellFormed]; decide) (by decide)⟩

/-- Claim C5: for every node of the tree built from well-formed Collector
output, the distribution percentages sum to exactly 100 (in exact rational
arithmetic) whenever the node's total is positive, and are all exactly 0
when the total is 0. -/
theorem claim_C5 (data : List (Key × Nat)) (detail : List (Key × List (String × Nat)))
    (hWF : WellFormed ROOT_DIRECTORIES data detail) (hnd : (data.map Prod.fst).Nodup) :
    ∀ pr ∈ build_hierarchy ROOT_DIRECTORIES data detail,
      ((0 < pr.2.total_size → (pr.2.distribution.map fun e => e.percentage).sum = 100) ∧
        (pr.2.total_size = 0 → ∀ e ∈ pr.2.distribution, e.percentage = 0)) ∧
      (∀ ip ∈ pr.2.idents,
        (0 < ip.2.total_size → (ip.2.distribution.map fun e => e.percentage).sum = 100) ∧
        (ip.2.total_size = 0 → ∀ e ∈ ip.2.distribution, e.percentage = 0)) ∧
      ∀ ip ∈ pr.2.idents, ∀ vp ∈ ip.2.versions,
        (0 < vp.2.total_size → (vp.2.distribution.map fun e => e.percentage).sum = 100) ∧
        (vp.2.total_size = 0 → ∀ e ∈ vp.2.distribution, e.percentage = 0) := by
  intro pr hpr
  obtain ⟨a1, a2, a3, a4, a5⟩ :=
    build_hierarchy_facts ROOT_DIRECTORIES data detail (by decide) hWF hnd pr hpr
  refine ⟨pct_closure a2 a4, ?_, ?_⟩
  · intro ip hip
    obtain ⟨⟨b1, b2, b3, b4⟩, b5⟩ := a5 ip hip
    exact pct_closure b2 b5
  · intro ip hip vp hvp
    obtain ⟨⟨b1, b2, b3, b4⟩, b5⟩ := a5 ip hip
    obtain ⟨c1, c2⟩ := b4 vp hvp
    exact pct_closure c1 c2

theorem claim_C5_witness :
    WellFormed ROOT_DIRECTORIES dataEx detailEx ∧ ((dataEx.map Prod.fst).Nodup) ∧
    ∀ pr ∈ build_hierarchy ROOT_DIRECTORIES dataEx detailEx,
      ((0 < pr.2.total_size → (pr.2.distribution.map fun e => e.percentage).sum = 100) ∧
        (pr.2.total_size = 0 → ∀ e ∈ pr.2.distribution, e.percentage = 0)) ∧
      (∀ ip ∈ pr.2.idents,
        (0 < ip.2.total_size → (ip.2.distribution.map fun e => e.percentage).sum = 100) ∧
        (ip.2.total_size = 0 → ∀ e ∈ ip.2.distribution, e.percentage = 0)) ∧
      ∀ ip ∈ pr.2.idents, ∀ vp ∈ ip.2.versions,
        (0 < vp.2.total_size → (vp.2.distribution.map fun e => e.percentage).sum = 100) ∧
        (vp.2.total_size = 0 → ∀ e ∈ vp.2.distribution, e.percentage = 0) :=
  ⟨by simp only [WellFormed]; decide, by decide,
    claim_C5 dataEx detailEx (by simp only [WellFormed]; decide) (by decide)⟩

/-- Claim C10, amended: with non-negative integer sizes (naturals) and the
well-formedness of the Collector output added (identity totals equal the sum
of the per-root details — without it a version percentage can exceed 100,
see the counterexample), every total and distribution size in the built tree
is a natural and every distribution percentage lies in [0, 100]. -/
theorem claim_C10_amended (data : List (Key × Nat))
    (detail : List (Key × List (String × Nat)))
    (hWF : WellFormed ROOT_DIRECTORIES data detail) (hnd : (data.map Prod.fst).Nodup) :
    ∀ pr ∈ build_hierarchy ROOT_DIRECTORIES data detail,
      (∀ e ∈ pr.2.distribution, 0 ≤ e.percentage ∧ e.percentage ≤ 100) ∧
      (∀ ip ∈ pr.2.idents, ∀ e ∈ ip.2.distribution,
        0 ≤ e.percentage ∧ e.percentage ≤ 100) ∧
      ∀ ip ∈ pr.2.idents, ∀ vp ∈ ip.2.versions, ∀ e ∈ vp.2.distribution,
        0 ≤ e.percentage ∧ e.percentage ≤ 100 := by
  intro pr hpr
  obtain ⟨a1, a2, a3, a4, a5⟩ :=
    build_hierarchy_facts ROOT_DIRECTORIES data detail (by decide) hWF hnd pr hpr
  refine ⟨pct_entry_bounds a2 a4, ?_, ?_⟩
  · intro ip hip
    obtain ⟨⟨b1, b2, b3, b4⟩, b5⟩ := a5 ip hip
    exact pct_entry_bounds b2 b5
  · intro ip hip vp hvp
    obtain ⟨⟨b1, b2, b3, b4⟩, b5⟩ := a5 ip hip
    obtain ⟨c1, c2⟩ := b4 vp hvp
    exact pct_entry_bounds c1 c2

theorem claim_C10_witness :
    WellFormed ROOT_DIRECTORIES dataEx detailEx ∧ ((dataEx.map Prod.fst).Nodup) ∧
    ∀ pr ∈ build_hierarchy ROOT_DIRECTORIES dataEx detailEx,
      (∀ e ∈ pr.2.distribution, 0 ≤ e.percentage ∧ e.percentage ≤ 100) ∧
      (∀ ip ∈ pr.2.idents, ∀ e ∈ ip.2.distribution,
        0 ≤ e.percentage ∧ e.percentage ≤ 100) ∧
      ∀ ip ∈ pr.2.idents, ∀ vp ∈ ip.2.versions, ∀ e ∈ vp.2.distribution,
        0 ≤ e.percentage ∧ e.percentage ≤ 100 :=
  ⟨by simp only [WellFormed]; decide, by decide,
    claim_C10_amended dataEx detailEx (by simp only [WellFormed]; decide) (by decide)⟩

/-! ### Claim C6: the guarded percentage never divides by zero -/

theorem pctChecked_eq (total size : Nat) : pctChecked total size = some (pct total size) := by
  unfold pctChecked pct qdiv
  by_cases ht : 0 < total
  · have hne : (total : Rat) ≠ 0 := by
      exact_mod_cast Nat.pos_iff_ne_zero.1 ht
    rw [if_pos ht, if_pos ht, if_neg hne]
    rfl
  · rw [if_neg ht, if_neg ht]

theorem list_mapM_eq_some {α β : Type} {f : α → Option β} {g : α → β}
    (l : List α) (hfg : ∀ a ∈ l, f a = some (g a)) : l.mapM f = some (l.map g) := by
  induction l with
  | nil => rfl
  | cons a l ih =>
    rw [List.mapM_cons, hfg a (by simp), ih (fun a ha => hfg a (by simp [ha]))]
    rfl

theorem list_foldlM_eq_some {α β : Type} {f : β → α → Option β} {g : β → α → β}
    (hfg : ∀ b a, f b a = some (g b a)) :
    ∀ (l : List α) (b : β), l.foldlM f b = some (l.foldl g b) := by
  intro l
  induction l with
  | nil => intro b; rfl
  | cons a l ih =>
    intro b
    rw [List.foldlM_cons, hfg b a]
    simpa using ih (g b a)

theorem rootStepChecked_eq (detail : List (Key × List (String × Nat))) (k : Key)
    (total : Nat) (p : ProjectNode) (ir : Nat × String) :
    rootStepChecked detail k total p ir = some (rootStep detail k total p ir) := by
  unfold rootStepChecked rootStep
  rw [pctChecked_eq]
  rfl

theorem fillStepChecked_eq (R : List String) (detail : List (Key × List (String × Nat)))
    (h : Hierarchy) (kv : Key × Nat) :
    fillStepChecked R detail h kv = some (fillStep R detail h kv) := by
  unfold fillStepChecked fillStep
  rw [list_foldlM_eq_some (rootStepChecked_eq detail kv.1 kv.2)]
  rw [amodifyD_eq_asetD]
  rfl

theorem pctEntriesChecked_eq (total : Nat) (d : List Entry) :
    pctEntriesChecked total d = some (pctEntries total d) := by
  unfold pctEntriesChecked pctEntries
  exact list_mapM_eq_some d (fun e _ => by rw [pctChecked_eq]; rfl)

theorem pctPassChecked_eq (h : Hierarchy) : pctPassChecked h = some (pctPass h) := by
  unfold pctPassChecked pctPass
  apply list_mapM_eq_some
  intro pr _
  have hin : pr.2.idents.mapM (fun ip =>
      (pctEntriesChecked ip.2.total_size ip.2.distribution).map
        fun dd => (ip.1, { ip.2 with distribution := dd })) =
      some (pr.2.idents.map fun ip =>
        (ip.1, { ip.2 with distribution := pctEntries ip.2.total_size ip.2.distribution })) := by
    apply list_mapM_eq_some
    intro ip _
    rw [pctEntriesChecked_eq]
    rfl
  rw [pctEntriesChecked_eq, hin]
  rfl

/-- Claim C6: the Hierarchy Builder and the global-distribution computation
never raise: making each guarded percentage division fallible (`none` on a
zero denominator) changes nothing — the checked computations always return
`some` of the unchecked runs, so the zero-denominator branch of every
division is unreachable and a zero total yields percentage 0. -/
theorem claim_C6 :
    (∀ total size : Nat, pctChecked total size = some (pct total size)) ∧
    (∀ (R : List String) (data : List (Key × Nat))
      (detail : List (Key × List (String × Nat))),
      build_hierarchyChecked R data detail = some (build_hierarchy R data detail)) ∧
    (∀ acc : CollectAcc,
      index_root_distributionChecked acc = some (index_root_distribution acc)) := by
  refine ⟨pctChecked_eq, ?_, ?_⟩
  · intro R data detail
    unfold build_hierarchyChecked build_hierarchy
    rw [list_foldlM_eq_some (fun h kv => fillStepChecked_eq R detail h kv)]
    simpa using pctPassChecked_eq (data.foldl (fillStep R detail) (skeleton R data))
  · intro acc
    unfold index_root_distributionChecked index_root_distribution
    apply list_mapM_eq_some
    intro rs _
    rw [pctChecked_eq]
    rfl

/-! ### Sorting lemmas (index stage) -/

theorem versionLe_trans {a b c : VersionOut} (h1 : versionLe a b = true)
    (h2 : versionLe b c = true) : versionLe a c = true := by
  unfold versionLe at h1 h2 ⊢
  simp only [decide_eq_true_eq] at h1 h2 ⊢
  omega

theorem versionLe_total (a b : VersionOut) : (versionLe a b || versionLe b a) = true := by
  unfold versionLe
  simp only [Bool.or_eq_true, decide_eq_true_eq]
  omega

theorem projLe_trans {sb : String} {a b c : ProjectOut} (h1 : projLe sb a b = true)
    (h2 : projLe sb b c = true) : projLe sb a c = true := by
  unfold projLe at h1 h2 ⊢
  by_cases hn : sb = "name"
  · simp only [hn, ite_true, decide_eq_true_eq] at h1 h2 ⊢
    exact le_trans h1 h2
  · simp only [hn, ite_false, decide_eq_true_eq] at h1 h2 ⊢
    omega

theorem projLe_total (sb : String) (a b : ProjectOut) :
    (projLe sb a b || projLe sb b a) = true := by
  unfold projLe
  by_cases hn : sb = "name"
  · simp only [hn, ite_true, Bool.or_eq_true, decide_eq_true_eq]
    exact le_total _ _
  · simp only [hn, ite_false, Bool.or_eq_true, decide_eq_true_eq]
    omega

theorem sortProjects_pairwise (sb od : String) (ps : List ProjectOut) :
    (sortProjects sb od ps).Pairwise fun a b =>
      (if od = "desc" then projLe sb b a else projLe sb a b) = true := by
  unfold sortProjects
  refine List.sorted_mergeSort ?_ ?_ ps
  · intro a b c h1 h2
    by_cases hd : od = "desc"
    · simp only [hd, ite_true] at h1 h2 ⊢
      exact projLe_trans h2 h1
    · simp only [hd, ite_false] at h1 h2 ⊢
      exact projLe_trans h1 h2
  · intro a b
    by_cases hd : od = "desc"
    · simp only [hd, ite_true]
      rw [Bool.or_comm]
      exact projLe_total sb a b
    · simp only [hd, ite_false]
      exact projLe_total sb a b

theorem versions_sorted_of_mem {h : Hierarchy} {sp op : Option String}
    {p : ProjectOut} (hp : p ∈ index_projects sp op h) :
    ∀ ind ∈ p.idents, ind.versions.Pairwise fun a b => b.total_size ≤ a.total_size := by
  intro ind hind
  unfold index_projects sortProjects at hp
  have hp2 : p ∈ toProjects h := List.mem_mergeSort.1 hp
  unfold toProjects at hp2
  obtain ⟨pr, _, rfl⟩ := List.mem_map.1 hp2
  simp only at hind
  obtain ⟨ip, _, rfl⟩ := List.mem_map.1 hind
  simp only
  have hs := @List.sorted_mergeSort VersionOut versionLe
    (fun a b c h1 h2 => versionLe_trans h1 h2) versionLe_total
    (ip.2.versions.map fun vp => (⟨vp.1, vp.2.total_size, vp.2.distribution⟩ : VersionOut))
  refine hs.imp ?_
  intro a b hab
  unfold versionLe at hab
  simpa using hab

/-- Claim C7: the exposed VersionNodes inside every IdentNode are sorted by
total size descending, and the top-level projects are sorted by the
caller-selected key (total_size, or case-insensitively lowered name) in the
caller-selected direction; with both request parameters absent the default is
total_size descending. -/
theorem claim_C7 (h : Hierarchy) (sp op : Option String) :
    (∀ p ∈ index_projects sp op h, ∀ ind ∈ p.idents,
      ind.versions.Pairwise fun a b => b.total_size ≤ a.total_size) ∧
    (op.getD "desc" = "desc" → sp.getD "total_size" ≠ "name" →
      (index_projects sp op h).Pairwise fun a b => b.total_size ≤ a.total_size) ∧
    (op.getD "desc" = "desc" → sp.getD "total_size" = "name" →
      (index_projects sp op h).Pairwise fun a b => b.name.toLower ≤ a.name.toLower) ∧
    (op.getD "desc" ≠ "desc" → sp.getD "total_size" ≠ "name" →
      (index_projects sp op h).Pairwise fun a b => a.total_size ≤ b.total_size) ∧
    (op.getD "desc" ≠ "desc" → sp.getD "total_size" = "name" →
      (index_projects sp op h).Pairwise fun a b => a.name.toLower ≤ b.name.toLower) ∧
    (sp = none → op = none →
      (index_projects sp op h).Pairwise fun a b => b.total_size ≤ a.total_size) := by
  have hsorted := sortProjects_pairwise (sp.getD "total_size") (op.getD "desc") (toProjects h)
  have hix : index_projects sp op h =
      sortProjects (sp.getD "total_size") (op.getD "desc") (toProjects h) := rfl
  have hdesc : op.getD "desc" = "desc" → sp.getD "total_size" ≠ "name" →
      (index_projects sp op h).Pairwise fun a b => b.total_size ≤ a.total_size := by
    intro hod hsb
    rw [hix]
    refine hsorted.imp ?_
    intro a b hab
    rw [if_pos hod] at hab
    unfold projLe at hab
    rw [if_neg hsb] at hab
    simpa using hab
  have hdescn : op.getD "desc" = "desc" → sp.getD "total_size" = "name" →
      (index_projects sp op h).Pairwise fun a b => b.name.toLower ≤ a.name.toLower := by
    intro hod hsb
    rw [hix]
    refine hsorted.imp ?_
    intro a b hab
    rw [if_pos hod] at hab
    unfold projLe at hab
    rw [if_pos hsb] at hab
    simpa using hab
  have hasc : op.getD "desc" ≠ "desc" → sp.getD "total_size" ≠ "name" →
      (index_projects sp op h).Pairwise fun a b => a.total_size ≤ b.total_size := by
    intro hod hsb
    rw [hix]
    refine hsorted.imp ?_
    intro a b hab
    rw [if_neg hod] at hab
    unfold projLe at hab
    rw [if_neg hsb] at hab
    simpa using hab
  have hascn : op.getD "desc" ≠ "desc" → sp.getD "total_size" = "name" →
      (index_projects sp op h).Pairwise fun a b => a.name.toLower ≤ b.name.toLower := by
    intro hod hsb
    rw [hix]
    refine hsorted.imp ?_
    intro a b hab
    rw [if_neg hod] at hab
    unfold projLe at hab
    rw [if_pos hsb] at hab
    simpa using hab
  refine ⟨fun p hp => versions_sorted_of_mem hp, hdesc, hdescn, hasc, hascn, ?_⟩
  intro hsp hop
  subst hsp hop
  exact hdesc rfl (by decide)

theorem claim_C7_witness :
    ((index_projects none none hEx).Pairwise fun a b => b.total_size ≤ a.total_size) ∧
    ∀ p ∈ index_projects none none hEx, ∀ ind ∈ p.idents,
      ind.versions.Pairwise fun a b => b.total_size ≤ a.total_size :=
  ⟨(claim_C7 hEx none none).2.2.2.2.2 rfl rfl, (claim_C7 hEx none none).1⟩

/-- Claim C9, amended: any sort value other than 'name' (absent, empty or
unrecognized) selects the total_size key; any SUPPLIED order value other
than 'desc' gives ascending order; an ABSENT order parameter defaults to
'desc' and gives descending order (the original claim wrongly put the absent
case with the ascending ones — see the counterexample). -/
theorem claim_C9_amended (h : Hierarchy) (sp op : Option String) :
    (sp.getD "total_size" ≠ "name" → op.getD "desc" = "desc" →
      (index_projects sp op h).Pairwise fun a b => b.total_size ≤ a.total_size) ∧
    (sp.getD "total_size" ≠ "name" → op.getD "desc" ≠ "desc" →
      (index_projects sp op h).Pairwise fun a b => a.total_size ≤ b.total_size) ∧
    (∀ s : String, op = some s → s ≠ "desc" → sp.getD "total_size" ≠ "name" →
      (index_projects sp op h).Pairwise fun a b => a.total_size ≤ b.total_size) ∧
    (op = none → sp.getD "total_size" ≠ "name" →
      (index_projects sp op h).Pairwise fun a b => b.total_size ≤ a.total_size) := by
  have hsorted := sortProjects_pairwise (sp.getD "total_size") (op.getD "desc") (toProjects h)
  have hix : index_projects sp op h =
      sortProjects (sp.getD "total_size") (op.getD "desc") (toProjects h) := rfl
  have hdesc : sp.getD "total_size" ≠ "name" → op.getD "desc" = "desc" →
      (index_projects sp op h).Pairwise fun a b => b.total_size ≤ a.total_size := by
    intro hsb hod
    rw [hix]
    refine hsorted.imp ?_
    intro a b hab
    rw [if_pos hod] at hab
    unfold projLe at hab
    rw [if_neg hsb] at hab
    simpa using hab
  have hasc : sp.getD "total_size" ≠ "name" → op.getD "desc" ≠ "desc" →
      (index_projects sp op h).Pairwise fun a b => a.total_size ≤ b.total_size := by
    intro hsb hod
    rw [hix]
    refine hsorted.imp ?_
    intro a b hab
    rw [if_neg hod] at hab
    unfold projLe at hab
    rw [if_neg hsb] at hab
    simpa using hab
  refine ⟨hdesc, hasc, ?_, ?_⟩
  · intro s hop hs hsb
    refine hasc hsb ?_
    rw [hop]
    simpa using hs
  · intro hop hsb
    refine hdesc hsb ?_
    rw [hop]
    rfl

theorem claim_C9_witness :
    (index_projects (some "weird") (some "up") hEx).Pairwise
      (fun a b => a.total_size ≤ b.total_size) :=
  (claim_C9_amended hEx (some "weird") (some "up")).2.1 (by decide) (by decide)

/-! ### The Collector is a plain sum -/

theorem statistics_getD (l : List Obs) : ∀ (acc : CollectAcc) (k : Key),
    agetD ((l.foldl collectStep acc).statistics) k 0 =
      agetD acc.statistics k 0 + (l.map fun o => if obsKey o = k then o.size else 0).sum := by
  induction l with
  | nil => intro acc k; simp
  | cons o l ih =>
    intro acc k
    rw [List.foldl_cons, ih (collectStep acc o) k]
    have hstep : agetD ((collectStep acc o).statistics) k 0 =
        agetD acc.statistics k 0 + (if obsKey o = k then o.size else 0) := by
      unfold collectStep
      exact agetD_aincr acc.statistics (obsKey o) k o.size
    rw [hstep]
    simp only [List.map_cons, List.sum_cons]
    omega

theorem root_statistics_getD (l : List Obs) : ∀ (acc : CollectAcc) (r : String),
    agetD ((l.foldl collectStep acc).root_statistics) r 0 =
      agetD acc.root_statistics r 0 + (l.map fun o => if o.root = r then o.size else 0).sum := by
  induction l with
  | nil => intro acc r; simp
  | cons o l ih =>
    intro acc r
    rw [List.foldl_cons, ih (collectStep acc o) r]
    have hstep : agetD ((collectStep acc o).root_statistics) r 0 =
        agetD acc.root_statistics r 0 + (if o.root = r then o.size else 0) := by
      unfold collectStep
      exact agetD_aincr acc.root_statistics o.root r o.size
    rw [hstep]
    simp only [List.map_cons, List.sum_cons]
    omega

theorem detail_step_getD (acc : CollectAcc) (o : Obs) (k : Key) (r : String) :
    dget ((collectStep acc o).detail_statistics) k r =
      dget acc.detail_statistics k r + (if obsKey o = k ∧ o.root = r then o.size else 0) := by
  unfold collectStep dget
  by_cases hk : obsKey o = k
  · subst hk
    have h1 : agetD
        (amodifyD acc.detail_statistics (obsKey o) [] fun d => aincr d o.root o.size)
        (obsKey o) [] =
        aincr (agetD acc.detail_statistics (obsKey o) []) o.root o.size := by
      unfold agetD
      rw [alookup_amodifyD_self]
      rfl
    rw [h1, agetD_aincr]
    simp
  · have hk2 : k ≠ obsKey o := fun hh => hk hh.symm
    have h1 : agetD
        (amodifyD acc.detail_statistics (obsKey o) [] fun d => aincr d o.root o.size) k [] =
        agetD acc.detail_statistics k [] := by
      unfold agetD
      rw [alookup_amodifyD_ne _ hk2]
    rw [h1]
    simp [hk]

theorem detail_getD (l : List Obs) : ∀ (acc : CollectAcc) (k : Key) (r : String),
    dget ((l.foldl collectStep acc).detail_statistics) k r =
      dget acc.detail_statistics k r +
        (l.map fun o => if obsKey o = k ∧ o.root = r then o.size else 0).sum := by
  induction l with
  | nil => intro acc k r; simp
  | cons o l ih =>
    intro acc k r
    rw [List.foldl_cons, ih (collectStep acc o) k r, detail_step_getD]
    simp only [List.map_cons, List.sum_cons]
    omega

/-- Claim C8: the three Collector reductions are plain sums of the
observations' sizes, so permuting the observation sequence leaves all three
resulting maps unchanged (same value at every key). -/
theorem claim_C8 (l l' : List Obs) (hp : l.Perm l') :
    (∀ k : Key, agetD (collect l).statistics k 0 = agetD (collect l').statistics k 0) ∧
    (∀ r : String,
      agetD (collect l).root_statistics r 0 = agetD (collect l').root_statistics r 0) ∧
    ∀ (k : Key) (r : String),
      dget (collect l).detail_statistics k r = dget (collect l').detail_statistics k r := by
  refine ⟨fun k => ?_, fun r => ?_, fun k r => ?_⟩
  · unfold collect
    rw [statistics_getD l _ k, statistics_getD l' _ k,
      (hp.map fun o => if obsKey o = k then o.size else 0).sum_eq]
  · unfold collect
    rw [root_statistics_getD l _ r, root_statistics_getD l' _ r,
      (hp.map fun o => if o.root = r then o.size else 0).sum_eq]
  · unfold collect
    rw [detail_getD l _ k r, detail_getD l' _ k r,
      (hp.map fun o => if obsKey o = k ∧ o.root = r then o.size else 0).sum_eq]

theorem claim_C8_witness :
    ([obs1, obs2].Perm [obs2, obs1]) ∧
    agetD (collect [obs1, obs2]).statistics ⟨"p", "v", "i"⟩ 0 =
      agetD (collect [obs2, obs1]).statistics ⟨"p", "v", "i"⟩ 0 ∧
    agetD (collect [obs1, obs2]).root_statistics "/data/DDAM1" 0 =
      agetD (collect [obs2, obs1]).root_statistics "/data/DDAM1" 0 ∧
    dget (collect [obs1, obs2]).detail_statistics ⟨"p", "v", "i"⟩ "/data/DDAM2" =
      dget (collect [obs2, obs1]).detail_statistics ⟨"p", "v", "i"⟩ "/data/DDAM2" :=
  ⟨by decide, (claim_C8 [obs1, obs2] [obs2, obs1] (by decide)).1 _,
    (claim_C8 [obs1, obs2] [obs2, obs1] (by decide)).2.1 _,
    (claim_C8 [obs1, obs2] [obs2, obs1] (by decide)).2.2 _ _⟩

/-! ### The global root distribution lists exactly the observed roots -/

theorem alookup_eq_none_of_not_mem_keys {α β : Type} [DecidableEq α] {d : List (α × β)}
    {k : α} (h : k ∉ keys d) : alookup d k = none := by
  rw [alookup_none_iff]
  intro x hx hxk
  exact h (hxk ▸ List.mem_map_of_mem Prod.fst hx)

theorem not_mem_keys_of_alookup_eq_none {α β : Type} [DecidableEq α] {d : List (α × β)}
    {k : α} (h : alookup d k = none) : k ∉ keys d := by
  intro hk
  obtain ⟨x, hx, hxk⟩ := List.mem_map.1 hk
  exact (alookup_none_iff d k).1 h x hx hxk

theorem keys_aincr_mem {α : Type} [DecidableEq α] {d : List (α × Nat)} {k : α} (v : Nat)
    (h : k ∈ keys d) : keys (aincr d k v) = keys d := by
  unfold aincr
  cases hq : alookup d k with
  | none => exact absurd h (not_mem_keys_of_alookup_eq_none hq)
  | some w => exact keys_amodifyD_some hq _ _

theorem keys_aincr_not_mem {α : Type} [DecidableEq α] {d : List (α × Nat)} {k : α} (v : Nat)
    (h : k ∉ keys d) : keys (aincr d k v) = keys d ++ [k] :=
  keys_amodifyD_none (alookup_eq_none_of_not_mem_keys h) _ _

theorem keys_root_group_mem (r : String) (sl : List SiteObs) :
    ∀ acc : CollectAcc, r ∈ keys acc.root_statistics →
      keys (((sl.map (tagObs r)).foldl collectStep acc).root_statistics) =
        keys acc.root_statistics := by
  induction sl with
  | nil => intro acc _; rfl
  | cons s sl ih =>
    intro acc hmem
    rw [List.map_cons, List.foldl_cons]
    have hstep : keys ((collectStep acc (tagObs r s)).root_statistics) =
        keys acc.root_statistics := keys_aincr_mem _ hmem
    rw [ih (collectStep acc (tagObs r s)) (by rw [hstep]; exact hmem), hstep]

theorem keys_root_group (r : String) (sl : List SiteObs) (acc : CollectAcc)
    (habs : r ∉ keys acc.root_statistics) :
    keys (((sl.map (tagObs r)).foldl collectStep acc).root_statistics) =
      keys acc.root_statistics ++ (if sl.isEmpty then [] else [r]) := by
  cases sl with
  | nil => simp
  | cons s sl =>
    rw [List.map_cons, List.foldl_cons]
    have hstep : keys ((collectStep acc (tagObs r s)).root_statistics) =
        keys acc.root_statistics ++ [r] := keys_aincr_not_mem _ habs
    rw [keys_root_group_mem r sl (collectStep acc (tagObs r s))
      (by rw [hstep]; exact List.mem_append_right _ (by simp)), hstep]
    simp

theorem keys_collect_roots (obsOf : String → List SiteObs) :
    ∀ (rs : List String), rs.Nodup → ∀ acc : CollectAcc,
      (∀ r ∈ rs, r ∉ keys acc.root_statistics) →
      keys (((rs.flatMap fun r => (obsOf r).map (tagObs r)).foldl collectStep acc).root_statistics) =
        keys acc.root_statistics ++ rs.filter (fun r => !(obsOf r).isEmpty) := by
  intro rs
  induction rs with
  | nil => intro _ acc _; simp
  | cons r rs ih =>
    intro hnd acc habs
    rw [List.flatMap_cons, List.foldl_append]
    have hgroup := keys_root_group r (obsOf r) acc (habs r (by simp))
    have habs2 : ∀ r' ∈ rs, r' ∉ keys
        (((obsOf r).map (tagObs r)).foldl collectStep acc).root_statistics := by
      intro r' hr'
      rw [hgroup]
      intro hmem
      rcases List.mem_append.1 hmem with hmem | hmem
      · exact habs r' (by simp [hr']) hmem
      · have hrr : r' = r := by
          revert hmem
          split <;> simp_all
        exact (List.nodup_cons.1 hnd).1 (hrr ▸ hr')
    rw [ih (List.nodup_cons.1 hnd).2 _ habs2, hgroup, List.filter_cons]
    cases hobs : (obsOf r).isEmpty <;> simp [hobs]

theorem root_distribution_items (acc : CollectAcc) :
    (index_root_distribution acc).map (fun e => (e.root, e.size)) = acc.root_statistics := by
  unfold index_root_distribution
  rw [List.map_map]
  have : acc.root_statistics.map
      ((fun e : Entry => (e.root, e.size)) ∘ fun rs =>
        (⟨rs.1, rs.2, pct (total_size_of acc.root_statistics) rs.2⟩ : Entry)) =
      acc.root_statistics.map id := by
    apply List.map_congr_left
    intro x _
    rfl
  rw [this, List.map_id]

/-- Claim C3, amended: the global root_distribution has exactly one entry per
known root that received at least one observation, in the configured order
(a configured root with no observations anywhere is omitted entirely rather
than listed with size 0 — see the counterexample); the entries carry exactly
the per-root totals, and the exposed total_size is the sum of the entries'
sizes. -/
theorem claim_C3_amended (obsOf : String → List SiteObs) :
    ((index_root_distribution (collect_data obsOf)).map fun e => (e.root, e.size)) =
        (collect_data obsOf).root_statistics ∧
    ((index_root_distribution (collect_data obsOf)).map fun e => e.root) =
        ROOT_DIRECTORIES.filter (fun r => !(obsOf r).isEmpty) ∧
    total_size_of (collect_data obsOf).root_statistics =
      ((index_root_distribution (collect_data obsOf)).map fun e => e.size).sum := by
  refine ⟨root_distribution_items _, ?_, ?_⟩
  · have hroot : ((index_root_distribution (collect_data obsOf)).map fun e => e.root) =
        keys (collect_data obsOf).root_statistics := by
      unfold index_root_distribution keys
      rw [List.map_map]
      rfl
    rw [hroot]
    unfold collect_data collect
    exact keys_collect_roots obsOf ROOT_DIRECTORIES (by decide) ⟨[], [], []⟩
      (by intro r _ hmem; simp [keys] at hmem)
  · unfold total_size_of index_root_distribution
    rw [List.map_map]
    rfl

end SDFA
